import Mathlib

/-!
Verification of the yamled path-addressed YAML tree editing library.

The definitions below are a shallow embedding of the Go source:
`node.go` (tree node wrapper: get/Get/GetKey/MustGet, set/Set/Replace,
setKey/SetKey/ReplaceKey, setAt/SetAt/ReplaceAt, DeleteKey, helpers),
`util.go` (node constructors), the path type (`Step`, `Path`, `Validate`,
`Prepend`, ...) and `document.go` (`Bytes`).

Go's `*yaml.Node` trees are mutable pointer structures; the embedding
models a tree as an immutable value and every mutating operation returns
the updated tree alongside its result.  In-place mutation of a child
node obtained during traversal is realized by writing the updated child
back into the parent's content slot the traversal used.
-/

namespace Yamled

/-- The five node kinds of yaml.v3 (`yaml.Kind`). -/
inductive Kind where
  | document
  | sequence
  | mapping
  | scalar
  | aliasNode
  deriving DecidableEq, Repr

/-- Shallow embedding of `yaml.Node`: kind, style, tag, value, anchor,
alias pointer (modelled as a plain number), content, the three comment
strings, and line/column.  These are exactly the fields `deepCopyNode`
in node.go copies. -/
inductive YNode where
  | mk
    (kind : Kind)
    (style : Nat)
    (tag : String)
    (value : String)
    (anchor : String)
    (aliasPtr : Nat)
    (content : List YNode)
    (headComment : String)
    (lineComment : String)
    (footComment : String)
    (line : Nat)
    (column : Nat)
  deriving Repr

/-- Field accessor: `node.Kind`. -/
def YNode.kind : YNode → Kind
  | .mk k _ _ _ _ _ _ _ _ _ _ _ => k

/-- Field accessor: `node.Tag`. -/
def YNode.tag : YNode → String
  | .mk _ _ t _ _ _ _ _ _ _ _ _ => t

/-- Field accessor: `node.Value`. -/
def YNode.value : YNode → String
  | .mk _ _ _ v _ _ _ _ _ _ _ _ => v

/-- Field accessor: `node.Content`. -/
def YNode.content : YNode → List YNode
  | .mk _ _ _ _ _ _ c _ _ _ _ _ => c

/-- Replace the `Content` field of a node, keeping every other field.
This models an assignment `n.Content = ...` in Go. -/
def YNode.withContent : YNode → List YNode → YNode
  | .mk k s t v a al _ h l f ln col, c' => .mk k s t v a al c' h l f ln col

/-- `nullNode()` from util.go: a `!!null` scalar. -/
def nullNode : YNode :=
  .mk .scalar 0 "!!null" "null" "" 0 [] "" "" "" 0 0

/-- `mappingNode()` from util.go: an empty `!!map` mapping. -/
def mappingNode : YNode :=
  .mk .mapping 0 "!!map" "" "" 0 [] "" "" "" 0 0

/-- `sequenceNode()` from util.go: an empty `!!seq` sequence. -/
def sequenceNode : YNode :=
  .mk .sequence 0 "!!seq" "" "" 0 [] "" "" "" 0 0

/-- `stringNode(value)` from util.go: a `!!str` scalar with the given text. -/
def stringNode (value : String) : YNode :=
  .mk .scalar 0 "!!str" value "" 0 [] "" "" "" 0 0

/-- A path step (`type Step interface\x7b\x7d`).  The Go code type-switches
on `string` and `int`; every other dynamic type falls into a default
branch.  `path` represents a whole `Path` value stored as a single step
(possible because `Step` is an empty interface, and what the source's
`Prepend` actually produces); `other` stands for a value of any further
dynamic type, carrying the name `%T` would print for it. -/
inductive Step where
  | str (s : String)
  | int (i : Int)
  | path (p : List Step)
  | other (typeName : String)
  deriving Repr

/-- A path: an ordered list of steps (`type Path []Step`). -/
abbrev Path := List Step

/-- The name the `%T` format verb prints for a step's dynamic type. -/
def stepTypeName : Step → String
  | .str _ => "string"
  | .int _ => "int"
  | .path _ => "yamled.Path"
  | .other t => t

/-- `Path.Append` from path.go: `append(p, s...)`. -/
def Path.Append (p : Path) (s : List Step) : Path :=
  p ++ s

/-- `Path.Prepend` from path.go: `append(s, p)`.  Note that the Go
expression appends the receiver path `p` itself as a single `Step`
element (its static type is the empty interface), it does not splice
`p`'s elements; that would be `append(s, p...)`. -/
def Path.Prepend (p : Path) (s : List Step) : Path :=
  s ++ [Step.path p]

/-- `Path.Parent` from path.go: all but the last step. -/
def Path.Parent (p : Path) : Path :=
  p.dropLast

/-- `Path.Start` from path.go: the first step, or nil for an empty path. -/
def Path.Start (p : Path) : Option Step :=
  p.head?

/-- `Path.End` from path.go: the last step, or nil for an empty path. -/
def Path.End (p : Path) : Option Step :=
  p.getLast?

/-- The per-step error strings collected by `Path.Validate`. -/
def validateErrors : List Step → List String
  | [] => []
  | .str _ :: rest => validateErrors rest
  | .int i :: rest =>
    (if i < 0 then [toString i ++ " is invalid, steps must be >= 0"] else [])
      ++ validateErrors rest
  | st :: rest =>
    ("cannot handle " ++ stepTypeName st ++ " steps") :: validateErrors rest

/-- `Path.Validate` from path.go: collects one message per malformed step
(negative integer, or a type other than string/int) and joins them. -/
def Path.Validate (p : Path) : Option String :=
  match validateErrors p with
  | [] => none
  | errs => some ("invalid path: " ++ String.intercalate "; " errs)

/-- Result of the internal `node.get` (Go returns `(Node, bool, bool)`:
the child, a found flag and an incompatible-kind flag).  `panicked`
marks the one input class on which the Go code raises a runtime panic
(a negative integer index below the sequence length reaches
`n.node.Content[step]` out of range); no theorem below touches it. -/
inductive GetRes where
  | found (child : YNode)
  | notFound (incompatibleKind : Bool)
  | panicked
  deriving Repr

/-- The key scan shared by `get`, `setKeyNode` and `DeleteKey` in node.go:
walk the mapping content two entries at a time (`for i := 0; i < len; i += 2`)
and return the index of the first scalar key node whose value equals the
step, skipping non-scalar keys. -/
def findKeyPos : List YNode → String → Option Nat
  | [], _ => none
  | [k], step => if k.kind = .scalar ∧ k.value = step then some 0 else none
  | k :: _ :: rest, step =>
    if k.kind = .scalar ∧ k.value = step then some 0
    else (findKeyPos rest step).map (· + 2)

/-- Single-step `node.get` from node.go (the `switch step := steps[0].(type)`
body): a string step looks the key up in a mapping, an integer step
indexes a sequence, anything else is not found.  The `NewNode` calls in
the source fail exactly on document-kind children, which surfaces as
not-found. -/
def YNode.get1 (n : YNode) (step : Step) : GetRes :=
  match step with
  | .str s =>
    if n.kind ≠ .mapping then .notFound true
    else
      match findKeyPos n.content s with
      | some i =>
        if i + 1 ≥ n.content.length then .notFound false
        else
          match n.content.get? (i + 1) with
          | some v => if v.kind = .document then .notFound false else .found v
          | none => .notFound false
      | none => .notFound false
  | .int i =>
    if n.kind ≠ .sequence then .notFound true
    else if (n.content.length : Int) ≤ i then .notFound false
    else if i < 0 then .panicked
    else
      match n.content.get? i.toNat with
      | some c => if c.kind = .document then .notFound false else .found c
      | none => .panicked
  | _ => .notFound false

/-- `node.get` from node.go: an empty step list is not found; multiple
steps run the first step and, on success, recurse on the child with the
remaining steps. -/
def YNode.get (n : YNode) : List Step → GetRes
  | [] => .notFound false
  | [st] => n.get1 st
  | st :: rest =>
    match n.get1 st with
    | .found child => child.get rest
    | r => r

/-- `node.Get` from node.go: `get` with the incompatible-kind detail
dropped, returning the node and a found flag.  (On the `panicked` branch
the Go original does not return; the embedding yields not-found there
and no theorem relies on that branch.) -/
def YNode.Get (n : YNode) (steps : List Step) : Option YNode × Bool :=
  match n.get steps with
  | .found child => (some child, true)
  | _ => (none, false)

/-- `node.MustGet` from node.go: `get` with not-found coerced to a fresh
null scalar node. -/
def YNode.MustGet (n : YNode) (steps : List Step) : YNode :=
  match n.get steps with
  | .found child => child
  | _ => nullNode

/-- The final key scan of `node.GetKey`: return the key node itself
(first scalar key whose value equals the step; a non-string step never
matches the `kNode.Value == step` interface comparison). -/
def keyLookup (content : List YNode) (step : Step) : Option YNode :=
  match step with
  | .str s => (findKeyPos content s).bind (fun i => content.get? i)
  | _ => none

/-- The tail of `node.GetKey` once the parent of the final step is at
hand: the parent must be a mapping, then the key scan runs. -/
def getKeyScan (cur : YNode) (step : Step) : Option YNode × Bool :=
  if cur.kind ≠ .mapping then (none, false)
  else
    match keyLookup cur.content step with
    | some k => (some k, true)
    | none => (none, false)

/-- `node.GetKey` from node.go: traverse down to the parent of the last
step with `get`, then return the mapping entry's key node (not its
value). -/
def YNode.GetKey (n : YNode) (steps : List Step) : Option YNode × Bool :=
  match steps with
  | [] => (none, false)
  | _ :: _ =>
    if steps.length > 1 then
      match n.get steps.dropLast with
      | .found cur => getKeyScan cur ((steps.getLast?).getD (.other ""))
      | _ => (none, false)
    else getKeyScan n ((steps.getLast?).getD (.other ""))

end Yamled

namespace Yamled

/-- The domain of caller-supplied Go values fed to the write operations:
nil, booleans, integers, strings, lists and string-keyed maps (an
association list, preserving entry order). -/
inductive GoValue where
  | vnull
  | vbool (b : Bool)
  | vint (i : Int)
  | vstr (s : String)
  | vlist (xs : List GoValue)
  | vmap (kvs : List (String × GoValue))
  deriving Repr

/-- Decimal digit to character. -/
def digitChar : Nat → Char
  | 0 => '0' | 1 => '1' | 2 => '2' | 3 => '3' | 4 => '4'
  | 5 => '5' | 6 => '6' | 7 => '7' | 8 => '8' | _ => '9'

/-- Character to decimal digit (10 for non-digits). -/
def charDigit : Char → Nat
  | '0' => 0 | '1' => 1 | '2' => 2 | '3' => 3 | '4' => 4
  | '5' => 5 | '6' => 6 | '7' => 7 | '8' => 8 | '9' => 9
  | _ => 10

/-- Is the character a decimal digit. -/
def isDigitChar (c : Char) : Bool :=
  charDigit c < 10

/-- Render a natural number in decimal (most significant digit first). -/
def natChars (n : Nat) : List Char :=
  if n = 0 then ['0'] else ((Nat.digits 10 n).map digitChar).reverse

/-- Parse a decimal digit string back into a natural number. -/
def charsNat (cs : List Char) : Option Nat :=
  if cs = [] then none
  else if cs.all isDigitChar then some (Nat.ofDigits 10 ((cs.map charDigit).reverse))
  else none

/-- Render an integer in decimal. -/
def intChars : Int → List Char
  | .ofNat n => natChars n
  | .negSucc n => '-' :: natChars (n + 1)

/-- Parse a decimal integer string. -/
def charsInt (cs : List Char) : Option Int :=
  if cs.head? = some '-' then
    match charsNat cs.tail with
    | some m => if m = 0 then none else some (-(m : Int))
    | none => none
  else (charsNat cs).map (fun m => (m : Int))

mutual

/-- Modelled from the spec: `createNode(value)` in node.go encodes the
caller value through the external yaml.v3 encoder and decodes the result
back into a tree node.  The model maps each value directly to the node
yaml.v3 produces for it: tagged scalars for leaves, `!!seq` sequences
for lists and `!!map` mappings with alternating scalar-key/value content
for maps. -/
def createNode : GoValue → YNode
  | .vnull => nullNode
  | .vbool b => .mk .scalar 0 "!!bool" (if b then "true" else "false") "" 0 [] "" "" "" 0 0
  | .vint i => .mk .scalar 0 "!!int" (String.mk (intChars i)) "" 0 [] "" "" "" 0 0
  | .vstr s => .mk .scalar 0 "!!str" s "" 0 [] "" "" "" 0 0
  | .vlist xs => .mk .sequence 0 "!!seq" "" "" 0 (createNodes xs) "" "" "" 0 0
  | .vmap kvs => .mk .mapping 0 "!!map" "" "" 0 (createPairs kvs) "" "" "" 0 0

/-- Children of an encoded list value. -/
def createNodes : List GoValue → List YNode
  | [] => []
  | v :: rest => createNode v :: createNodes rest

/-- Alternating key/value content of an encoded map value. -/
def createPairs : List (String × GoValue) → List YNode
  | [] => []
  | (k, v) :: rest => stringNode k :: createNode v :: createPairs rest

end

/-- Decode a scalar node's tag/value pair back into a Go value
(modelling `yaml.Node.Decode` on scalars). -/
def decodeScalar (tag : String) (value : String) : Option GoValue :=
  if tag = "!!null" then some .vnull
  else if tag = "!!bool" then
    if value = "true" then some (.vbool true)
    else if value = "false" then some (.vbool false)
    else none
  else if tag = "!!int" then (charsInt value.data).map .vint
  else if tag = "!!str" then some (.vstr value)
  else none

mutual

/-- Modelled from the spec: `yaml.Node.Decode` into a generic value, the
external decoding used by the round-trip property ("a node that decodes
back to v").  Scalars decode by tag, sequences element-wise, mappings
pairwise with scalar string keys. -/
def nodeDecode : YNode → Option GoValue
  | .mk k _ tag value _ _ content _ _ _ _ _ =>
    match k with
    | .scalar => decodeScalar tag value
    | .sequence => (nodesDecode content).map .vlist
    | .mapping => (pairsDecode content).map .vmap
    | _ => none

/-- Decode a sequence's children. -/
def nodesDecode : List YNode → Option (List GoValue)
  | [] => some []
  | c :: rest =>
    match nodeDecode c, nodesDecode rest with
    | some v, some vs => some (v :: vs)
    | _, _ => none

/-- Decode a mapping's alternating key/value content. -/
def pairsDecode : List YNode → Option (List (String × GoValue))
  | [] => some []
  | [_] => none
  | k :: v :: rest =>
    if k.kind = .scalar ∧ k.tag = "!!str" then
      match nodeDecode v, pairsDecode rest with
      | some gv, some rest' => some ((k.value, gv) :: rest')
      | _, _ => none
    else none

end

/-- Modelled from the spec: `isNullNode`, referenced by `compatibleKinds`
in node.go but defined in a file not present here.  Per the spec, a null
scalar (the `!!null` tag) is compatible with any kind. -/
def isNullNode (n : YNode) : Bool :=
  n.kind = .scalar ∧ n.tag = "!!null"

/-- `compatibleKinds(a, b)` from node.go: equal kinds, or either side is
a null scalar. -/
def compatibleKinds (a b : YNode) : Bool :=
  a.kind = b.kind ∨ isNullNode a ∨ isNullNode b

/-- `deepCopyNode(dst, src)` from node.go: overwrite every field of the
destination with the source's fields (the destination keeps its identity
in Go; as a value, the result is the source's fields wholesale). -/
def deepCopyNode (dst : YNode) (src : YNode) : YNode :=
  match dst, src with
  | .mk _ _ _ _ _ _ _ _ _ _ _ _, .mk k s t v a al c h l f ln col =>
    .mk k s t v a al c h l f ln col

/-- `createFittingEmptyNode(s)` from node.go: null scalar for a nil step,
empty mapping for a string step, empty sequence for an integer step, an
error for anything else. -/
def createFittingEmptyNode : Option Step → Except String YNode
  | none => .ok nullNode
  | some (.str _) => .ok mappingNode
  | some (.int _) => .ok sequenceNode
  | some st => .error ("cannot handle " ++ stepTypeName st ++ " steps when traversing paths")

/-- `node.setNode` from node.go: refuse an incompatible kind when kind
changes are forbidden, otherwise deep-copy the new node's fields onto
the wrapped node. -/
def YNode.setNode (n : YNode) (newNode : YNode) (forbidKindChange : Bool) :
    Option String × YNode :=
  if forbidKindChange && !(compatibleKinds newNode n) then
    (some "cannot set a new node kind without replacing the node", n)
  else (none, deepCopyNode n newNode)

/-- `node.set` from node.go: build the node for the value, then
`setNode`.  (`createNode` is total on the modelled value domain, so its
error return cannot fire.) -/
def YNode.set (n : YNode) (value : GoValue) (forbidKindChange : Bool) :
    Option String × YNode :=
  n.setNode (createNode value) forbidKindChange

/-- `node.Set`: kind-preserving whole-node write. -/
def YNode.Set (n : YNode) (value : GoValue) : Option String × YNode :=
  n.set value true

/-- `node.Replace`: whole-node write with kind changes allowed. -/
def YNode.Replace (n : YNode) (value : GoValue) : Option String × YNode :=
  n.set value false

/-- The `case yaml.MappingNode` branch of `setKeyNode`: the key must be a
string; either overwrite the value slot of the first matching scalar key
(subject to the kind check) or append a fresh key/value pair. -/
def setKeyNodeMapping (n : YNode) (key : Step) (newNode : YNode)
    (forbidKindChange : Bool) : Option String × YNode :=
  match key with
  | .str step =>
    match findKeyPos n.content step with
    | some i =>
      if i + 1 ≥ n.content.length then
        (some "found key node, but current object has no value node", n)
      else if forbidKindChange
          && !(compatibleKinds ((n.content.get? (i + 1)).getD nullNode) newNode) then
        (some "cannot change the node kind", n)
      else (none, n.withContent (n.content.set (i + 1) newNode))
    | none => (none, n.withContent (n.content ++ [stringNode step, newNode]))
  | _ => (some "invalid key type, must be string", n)

/-- The `case yaml.SequenceNode` branch of `setKeyNode`: the key must be
a non-negative integer; pad with null nodes until the index exists
(`for step >= len(content)`), then set it.  The padding is applied to
the receiver before the kind check, so it survives a kind error. -/
def setKeyNodeSequence (n : YNode) (key : Step) (newNode : YNode)
    (forbidKindChange : Bool) : Option String × YNode :=
  match key with
  | .int step =>
    if step < 0 then (some "step must be >= 0", n)
    else
      let padded := n.content ++ List.replicate (step.toNat + 1 - n.content.length) nullNode
      if forbidKindChange
          && !(compatibleKinds ((padded.get? step.toNat).getD nullNode) newNode) then
        (some "cannot change the node kind", n.withContent padded)
      else (none, n.withContent (padded.set step.toNat newNode))
  | _ => (some "invalid key type, must be int", n)

/-- `node.setKeyNode` from node.go: dispatch on the receiver's kind. -/
def YNode.setKeyNode (n : YNode) (key : Step) (newNode : YNode)
    (forbidKindChange : Bool) : Option String × YNode :=
  match n.kind with
  | .mapping => setKeyNodeMapping n key newNode forbidKindChange
  | .sequence => setKeyNodeSequence n key newNode forbidKindChange
  | _ => (some "node is neither sequence nor mapping node, cannot set a child value", n)

/-- `node.setKey` from node.go: build the node for the value, then
`setKeyNode`.  (The Go function additionally returns a wrapper of the
new node; the claims only concern the error and the updated tree.) -/
def YNode.setKey (n : YNode) (key : Step) (value : GoValue)
    (forbidKindChange : Bool) : Option String × YNode :=
  n.setKeyNode key (createNode value) forbidKindChange

/-- `node.SetKey`: kind-preserving child write. -/
def YNode.SetKey (n : YNode) (key : Step) (value : GoValue) : Option String × YNode :=
  n.setKey key value true

/-- `node.ReplaceKey`: child write with kind changes allowed. -/
def YNode.ReplaceKey (n : YNode) (key : Step) (value : GoValue) : Option String × YNode :=
  n.setKey key value false

/-- The content slot a single traversal/write step addresses, given the
content at lookup time: for a string step, the value slot of the first
matching scalar key, or the slot just past the appended key node when
the key is missing; for an integer step, that index.  This is where the
Go code's child pointer lives inside the parent, and where the updated
child is written back. -/
def childPos (content : List YNode) : Step → Nat
  | .str s =>
    match findKeyPos content s with
    | some i => i + 1
    | none => content.length + 1
  | .int i => i.toNat
  | _ => 0

/-- `node.setAt` from node.go: reject an empty or invalid path; with one
step left, delegate to `setKey`; otherwise look up the first step,
replacing the current node by a fitting empty container on a kind
mismatch (only when kind changes are allowed), inserting a fresh empty
container fitting the next step when the key is absent, and recurse.
The recursive result is written back into the content slot the step
addresses, which models the in-place mutation of the aliased child. -/
def YNode.setAt (n : YNode) (path : List Step) (value : GoValue)
    (forbidKindChange : Bool) : Option String × YNode :=
  match path with
  | [] => (some "path cannot be empty", n)
  | st :: tail =>
    match Path.Validate (st :: tail) with
    | some e => (some e, n)
    | none =>
      match tail with
      | [] => n.setKey st value forbidKindChange
      | _ :: _ =>
        match n.get1 st with
        | .panicked => (some "unreachable: the path was validated", n)
        | .found child =>
          let pos := childPos n.content st
          let r := child.setAt tail value forbidKindChange
          (r.1, n.withContent (n.content.set pos r.2))
        | .notFound incompatibleKind =>
          match
            (if incompatibleKind then
              if forbidKindChange then
                .error "current node cannot be traversed into and changing the kind is disabled"
              else (createFittingEmptyNode (some st)).map (fun e => deepCopyNode n e)
            else .ok n : Except String YNode)
          with
          | .error e => (some e, n)
          | .ok n1 =>
            match createFittingEmptyNode (Path.Start tail) with
            | .error e => (some e, n1)
            | .ok newEmpty =>
              let pos := childPos n1.content st
              match n1.setKeyNode st newEmpty false with
              | (some e, n2) => (some e, n2)
              | (none, n2) =>
                let r := newEmpty.setAt tail value forbidKindChange
                (r.1, n2.withContent (n2.content.set pos r.2))

/-- `node.SetAt`: kind-preserving write at a path. -/
def YNode.SetAt (n : YNode) (path : List Step) (value : GoValue) :
    Option String × YNode :=
  n.setAt path value true

/-- `node.ReplaceAt`: write at a path with kind changes allowed. -/
def YNode.ReplaceAt (n : YNode) (path : List Step) (value : GoValue) :
    Option String × YNode :=
  n.setAt path value false

end Yamled

namespace Yamled

/-- Result of `DeleteKey`.  `panicked` marks the input class on which the
Go code raises a runtime panic (a negative integer index on a sequence
reaches the slicing expression out of range); no theorem below touches
it. -/
inductive DelRes where
  | ok
  | err (msg : String)
  | panicked
  deriving Repr

/-- The single-step body of `node.DeleteKey` from node.go: a string step
on a mapping removes the first matching scalar key node together with its
value node (`append(content[:i], content[i+2:]...)`); an integer step on
a sequence removes that element (`append(content[:i], content[i+1:]...)`);
a kind mismatch is a silent no-op; any other step type is an error naming
the step's dynamic type. -/
def YNode.deleteKey1 (n : YNode) (step : Step) : DelRes × YNode :=
  match step with
  | .str s =>
    if n.kind ≠ .mapping then (.ok, n)
    else
      match findKeyPos n.content s with
      | some i =>
        if i + 1 ≥ n.content.length then (.ok, n)
        else (.ok, n.withContent (n.content.take i ++ n.content.drop (i + 2)))
      | none => (.ok, n)
  | .int i =>
    if n.kind ≠ .sequence then (.ok, n)
    else if (n.content.length : Int) ≤ i then (.ok, n)
    else if i < 0 then (.panicked, n)
    else (.ok, n.withContent (n.content.take i.toNat ++ n.content.drop (i.toNat + 1)))
  | st => (.err ("cannot handle " ++ stepTypeName st ++ " steps"), n)

/-- Write an updated node back at the position a `get` traversal reached,
following the same route step by step.  This realizes the Go pointer
aliasing: `DeleteKey` mutates the node returned by `Get`, and that node
lives inside its parents' content slots along the traversed route. -/
def replaceAtPath (n : YNode) (steps : List Step) (repl : YNode) : YNode :=
  match steps with
  | [] => repl
  | st :: rest =>
    match n.get1 st with
    | .found child =>
      n.withContent (n.content.set (childPos n.content st) (replaceAtPath child rest repl))
    | _ => n

/-- `node.DeleteKey` from node.go: an empty path is an error; with more
than one step, navigate to the parent of the last step via `Get`
(silently succeeding when that parent does not exist) and remove the
final entry there. -/
def YNode.DeleteKey (n : YNode) (steps : List Step) : DelRes × YNode :=
  match steps with
  | [] => (.err "path cannot be empty", n)
  | [st] => n.deleteKey1 st
  | _ :: _ :: _ =>
    match n.get steps.dropLast with
    | .found parent =>
      let r := parent.deleteKey1 ((steps.getLast?).getD (.other ""))
      (r.1, replaceAtPath n steps.dropLast r.2)
    | .panicked => (.panicked, n)
    | .notFound _ => (.ok, n)

/-- State-threaded form of `node.get`: the same traversal with the tree
the operation ran on returned alongside the result.  Each single-step
lookup only reads fields; the recursive step writes the child that came
back from the recursion into the content slot the step addressed
(the aliasing model), so any mutation the recursion performed would be
visible in the returned tree. -/
def YNode.getSt (n : YNode) : List Step → GetRes × YNode
  | [] => (.notFound false, n)
  | [st] => (n.get1 st, n)
  | st :: rest =>
    match n.get1 st with
    | .found child =>
      let r := child.getSt rest
      (r.1, n.withContent (n.content.set (childPos n.content st) r.2))
    | r => (r, n)

/-- State-threaded form of `node.Get`. -/
def YNode.GetSt (n : YNode) (steps : List Step) : (Option YNode × Bool) × YNode :=
  match n.getSt steps with
  | (.found child, n') => ((some child, true), n')
  | (_, n') => ((none, false), n')

/-- State-threaded form of `node.MustGet`: not-found coerced to a fresh
null scalar node (which is not inserted anywhere). -/
def YNode.MustGetSt (n : YNode) (steps : List Step) : YNode × YNode :=
  match n.getSt steps with
  | (.found child, n') => (child, n')
  | (_, n') => (nullNode, n')

/-- State-threaded form of `node.GetKey`: the prefix traversal threads
the tree, the final key scan only reads. -/
def YNode.GetKeySt (n : YNode) (steps : List Step) : (Option YNode × Bool) × YNode :=
  match steps with
  | [] => ((none, false), n)
  | _ :: _ =>
    if steps.length > 1 then
      match n.getSt steps.dropLast with
      | (.found cur, n') => (getKeyScan cur ((steps.getLast?).getD (.other "")), n')
      | (_, n') => ((none, false), n')
    else (getKeyScan n ((steps.getLast?).getD (.other "")), n)

/-- A run of spaces. -/
def spaces (n : Nat) : String :=
  String.mk (List.replicate n ' ')

mutual

/-- Modelled from the spec: the external yaml.v3 block-style encoder, as
far as the indentation claim needs it.  A scalar renders as its text; a
mapping renders one `key:` line per entry, with a scalar value inline
and any other value as a nested block indented by one more level of
`width` spaces.  `SetIndent(width)` on the Go encoder selects `width`. -/
def renderNode (width depth : Nat) : YNode → String
  | .mk k _ _ v _ _ c _ _ _ _ _ =>
    match k with
    | .scalar => spaces (depth * width) ++ v ++ "\n"
    | .mapping => renderPairs width depth c
    | _ => ""

/-- Render the alternating key/value content of a mapping. -/
def renderPairs (width depth : Nat) : List YNode → String
  | k :: v :: rest =>
    (if v.kind = .scalar then
      spaces (depth * width) ++ k.value ++ ": " ++ v.value ++ "\n"
    else
      spaces (depth * width) ++ k.value ++ ":\n" ++ renderNode width (depth + 1) v)
      ++ renderPairs width depth rest
  | _ => ""

end

/-- Encode a document node (render its single content child at depth 0)
with the given indentation width: the behaviour of
`yaml.NewEncoder(&buf); encoder.SetIndent(w); encoder.Encode(doc)`. -/
def yamlEncodeDocument (width : Nat) (doc : YNode) : String :=
  match doc.content.head? with
  | some root => renderNode width 0 root
  | none => ""

/-- `document.Bytes(indent)` from document.go (lines 57-67): despite
taking an indent parameter, the body calls `encoder.SetIndent(2)` with
the constant 2 before encoding, so the argument is ignored. -/
def document_Bytes (indent : Nat) (doc : YNode) : String :=
  yamlEncodeDocument 2 doc

/-- `document.Bytes(indent)` as defined in the other revision of the
document wrapper present in the sources (part_002 lines 54-64, matching
`node.Bytes` in node.go): `encoder.SetIndent(indent)` passes the caller's
width through. -/
def document_Bytes_fixed (indent : Nat) (doc : YNode) : String :=
  yamlEncodeDocument indent doc

/-- Well-formed trees per the spec's data model (section 3): a mapping's
content is a flat alternating key/value sequence (so its length is
even), and document-kind nodes occur only at the root, never as
descendants. -/
inductive WF : YNode → Prop where
  | mk (n : YNode)
    (heven : n.kind = .mapping → n.content.length % 2 = 0)
    (hdoc : ∀ c ∈ n.content, c.kind ≠ .document)
    (hrec : ∀ c ∈ n.content, WF c) : WF n

end Yamled

namespace Yamled

/-- The entry at (even) index `i` of a mapping's content is a scalar key
node whose text equals `s`.  This phrases the spec's "key node whose
text equals the step" positionally, for stating scan claims. -/
def keyMatchAt (content : List YNode) (s : String) (i : Nat) : Prop :=
  i % 2 = 0 ∧ ∃ k, content.get? i = some k ∧ k.kind = .scalar ∧ k.value = s

/-- `i` is the first position of `content` holding a key node matching
`s` (scanning in order). -/
def firstKeyMatch (content : List YNode) (s : String) (i : Nat) : Prop :=
  keyMatchAt content s i ∧ ∀ j < i, ¬keyMatchAt content s j

/-- A concrete inner mapping holding the single entry bar: x. -/
def exInner : YNode :=
  .mk .mapping 0 "!!map" "" "" 0 [stringNode "bar", stringNode "x"] "" "" "" 0 0

/-- A concrete root mapping holding the single entry foo: exInner. -/
def exRoot : YNode :=
  .mk .mapping 0 "!!map" "" "" 0 [stringNode "foo", exInner] "" "" "" 0 0

/-- A concrete document node wrapping `exRoot`, used to evaluate the
whole-document encoder. -/
def exDoc : YNode :=
  .mk .document 0 "" "" "" 0 [exRoot] "" "" "" 0 0

end Yamled

namespace Yamled

/-! ## Basic facts about the embedding -/

theorem withContent_kind (n : YNode) (c : List YNode) : (n.withContent c).kind = n.kind := by
  cases n; rfl

theorem withContent_content (n : YNode) (c : List YNode) : (n.withContent c).content = c := by
  cases n; rfl

theorem deepCopyNode_eq (d s : YNode) : deepCopyNode d s = s := by
  cases d; cases s; rfl

theorem get?_set_self {α : Type} (l : List α) (i : Nat) (x : α) (h : i < l.length) :
    (l.set i x).get? i = some x := by
  induction l generalizing i with
  | nil => simp at h
  | cons a t ih =>
    cases i with
    | zero => rfl
    | succ j => simpa using ih j (by simpa using h)

theorem get?_set_other {α : Type} (l : List α) (i j : Nat) (x : α) (h : i ≠ j) :
    (l.set i x).get? j = l.get? j := by
  induction l generalizing i j with
  | nil => simp
  | cons a t ih =>
    cases i with
    | zero => cases j with
      | zero => exact absurd rfl h
      | succ j' => rfl
    | succ i' =>
      cases j with
      | zero => rfl
      | succ j' => simpa using ih i' j' (by omega)

theorem set_self {α : Type} (l : List α) (i : Nat) (x : α) (h : l.get? i = some x) :
    l.set i x = l := by
  induction l generalizing i with
  | nil => simp
  | cons a t ih =>
    cases i with
    | zero => simp_all
    | succ j => simp_all

theorem set_append_right {α : Type} (l m : List α) (j : Nat) (x : α) :
    (l ++ m).set (l.length + j) x = l ++ m.set j x := by
  induction l with
  | nil => simp
  | cons a t ih => simpa [Nat.succ_add] using ih

/-! ## Facts about the key scan -/

theorem findKeyPos_bound : ∀ (content : List YNode) (s : String) (i : Nat),
    findKeyPos content s = some i →
    i % 2 = 0 ∧ ∃ k, content.get? i = some k ∧ k.kind = .scalar ∧ k.value = s
  | [], s, i, h => by simp [findKeyPos] at h
  | [k], s, i, h => by
    rw [findKeyPos] at h
    split at h
    · cases h; exact ⟨rfl, k, rfl, by simp_all⟩
    · cases h
  | k :: w :: rest, s, i, h => by
    rw [findKeyPos] at h
    split at h
    · cases h; exact ⟨rfl, k, rfl, by simp_all⟩
    · match hr : findKeyPos rest s with
      | none => rw [hr] at h; cases h
      | some i' =>
        rw [hr] at h
        simp only [Option.map_some'] at h
        cases h
        obtain ⟨he, k', hk', hrest⟩ := findKeyPos_bound rest s i' hr
        exact ⟨by omega, k', by simpa using hk', hrest⟩

theorem keyMatchAt_zero (k : YNode) (t : List YNode) (s : String) :
    keyMatchAt (k :: t) s 0 ↔ k.kind = .scalar ∧ k.value = s := by
  constructor
  · rintro ⟨-, k', hk', hsc, hv⟩
    cases hk'
    exact ⟨hsc, hv⟩
  · rintro ⟨hsc, hv⟩
    exact ⟨rfl, k, rfl, hsc, hv⟩

theorem keyMatchAt_cons2 (a b : YNode) (rest : List YNode) (s : String) (i : Nat) :
    keyMatchAt (a :: b :: rest) s (i + 2) ↔ keyMatchAt rest s i := by
  unfold keyMatchAt
  constructor
  · rintro ⟨hp, k, hk, h2⟩
    exact ⟨by omega, k, by simpa using hk, h2⟩
  · rintro ⟨hp, k, hk, h2⟩
    exact ⟨by omega, k, by simpa using hk, h2⟩

theorem findKeyPos_set_value : ∀ (content : List YNode) (s : String) (i : Nat) (x : YNode),
    findKeyPos content s = some i → findKeyPos (content.set (i + 1) x) s = some i
  | [], s, i, x, h => by simp [findKeyPos] at h
  | [k], s, i, x, h => by
    rw [findKeyPos] at h
    split at h
    · cases h; simpa [findKeyPos]
    · cases h
  | k :: w :: rest, s, i, x, h => by
    rw [findKeyPos] at h
    split at h
    · cases h
      simp only [List.set]
      rw [findKeyPos]
      simp_all
    · match hr : findKeyPos rest s with
      | none => rw [hr] at h; cases h
      | some i' =>
        rw [hr] at h
        simp only [Option.map_some'] at h
        cases h
        show findKeyPos (k :: w :: rest.set (i' + 1) x) s = some (i' + 2)
        rw [findKeyPos]
        split
        · simp_all
        · rw [findKeyPos_set_value rest s i' x hr]; rfl

theorem findKeyPos_append : ∀ (content ext : List YNode) (s : String),
    content.length % 2 = 0 →
    findKeyPos (content ++ ext) s =
      (match findKeyPos content s with
      | some i => some i
      | none => (findKeyPos ext s).map (· + content.length))
  | [], ext, s, _ => by
    simp only [List.nil_append, findKeyPos, List.length_nil]
    cases findKeyPos ext s <;> simp
  | [k], ext, s, h => by simp at h
  | k :: w :: rest, ext, s, h => by
    show findKeyPos (k :: w :: (rest ++ ext)) s = _
    rw [findKeyPos, findKeyPos]
    split
    · rfl
    · rw [findKeyPos_append rest ext s (by simp at h; omega)]
      match hr : findKeyPos rest s with
      | some i' => rfl
      | none =>
        simp only []
        cases findKeyPos ext s <;> simp
        omega

theorem firstKeyMatch_findKeyPos : ∀ (content : List YNode) (s : String) (i : Nat),
    keyMatchAt content s i → (∀ j < i, ¬keyMatchAt content s j) →
    findKeyPos content s = some i
  | [], s, i, hm, _ => by
    obtain ⟨-, k, hk, -⟩ := hm
    simp at hk
  | [k], s, i, hm, _ => by
    obtain ⟨hp, k', hk', hsc, hv⟩ := hm
    have hi : i = 0 := by
      by_contra hne
      rw [List.get?_eq_none.mpr (by simp; omega)] at hk'
      cases hk'
    subst hi
    cases hk'
    simp [findKeyPos, hsc, hv]
  | k :: w :: rest, s, i, hm, hfirst => by
    match i, hm with
    | 0, hm =>
      have := (keyMatchAt_zero k (w :: rest) s).mp hm
      simp [findKeyPos, this.1, this.2]
    | 1, hm => exact absurd hm.1 (by omega)
    | (i' + 2), hm =>
      have hnot0 : ¬(k.kind = .scalar ∧ k.value = s) := by
        intro hc
        exact hfirst 0 (by omega) ((keyMatchAt_zero k (w :: rest) s).mpr hc)
      rw [findKeyPos]
      rw [if_neg hnot0]
      rw [firstKeyMatch_findKeyPos rest s i'
        ((keyMatchAt_cons2 k w rest s i').mp hm)
        (fun j hj hc => hfirst (j + 2) (by omega) ((keyMatchAt_cons2 k w rest s j).mpr hc))]
      rfl

theorem noKeyMatch_findKeyPos : ∀ (content : List YNode) (s : String),
    (∀ i, ¬keyMatchAt content s i) → findKeyPos content s = none
  | [], s, _ => rfl
  | [k], s, h => by
    rw [findKeyPos, if_neg]
    intro hc
    exact h 0 ((keyMatchAt_zero k [] s).mpr hc)
  | k :: w :: rest, s, h => by
    rw [findKeyPos, if_neg, noKeyMatch_findKeyPos rest s
      (fun i hc => h (i + 2) ((keyMatchAt_cons2 k w rest s i).mpr hc))]
    · rfl
    · intro hc
      exact h 0 ((keyMatchAt_zero k (w :: rest) s).mpr hc)

theorem withContent_self (n : YNode) : n.withContent n.content = n := by
  cases n; rfl

theorem withContent_tag (n : YNode) (c : List YNode) : (n.withContent c).tag = n.tag := by
  cases n; rfl

/-! ## Well-formedness helpers -/

theorem WF.even {n : YNode} (h : WF n) (hk : n.kind = .mapping) :
    n.content.length % 2 = 0 := by
  cases h with
  | mk _ he _ _ => exact he hk

theorem WF.nodoc {n c : YNode} (h : WF n) (hc : c ∈ n.content) : c.kind ≠ .document := by
  cases h with
  | mk _ _ hd _ => exact hd c hc

theorem WF.mem {n c : YNode} (h : WF n) (hc : c ∈ n.content) : WF c := by
  cases h with
  | mk _ _ _ hr => exact hr c hc

theorem WF_of_nil {n : YNode} (h : n.content = []) : WF n := by
  refine WF.mk n (fun _ => by simp [h]) (fun c hc => ?_) (fun c hc => ?_) <;> simp [h] at hc

theorem WF_mappingNode : WF mappingNode := WF_of_nil rfl

theorem WF_sequenceNode : WF sequenceNode := WF_of_nil rfl

theorem WF_nullNode : WF nullNode := WF_of_nil rfl

/-! ## Facts about createNode and the fitting empty nodes -/

theorem createNode_kind_ne_doc (v : GoValue) : (createNode v).kind ≠ .document := by
  cases v <;> simp [createNode, nullNode, YNode.kind] <;> intro h <;> cases h

theorem createFittingEmptyNode_ok (st : Option Step) (y : YNode)
    (h : createFittingEmptyNode st = .ok y) :
    y = nullNode ∨ y = mappingNode ∨ y = sequenceNode := by
  match st with
  | none => cases h; exact Or.inl rfl
  | some (.str _) => cases h; exact Or.inr (Or.inl rfl)
  | some (.int _) => cases h; exact Or.inr (Or.inr rfl)
  | some (.path _) => cases h
  | some (.other _) => cases h

theorem createFittingEmptyNode_content (st : Option Step) (y : YNode)
    (h : createFittingEmptyNode st = .ok y) : y.content = [] := by
  rcases createFittingEmptyNode_ok st y h with h' | h' | h' <;> subst h' <;> rfl

theorem createFittingEmptyNode_kind (st : Option Step) (y : YNode)
    (h : createFittingEmptyNode st = .ok y) : y.kind ≠ .document := by
  rcases createFittingEmptyNode_ok st y h with h' | h' | h' <;> subst h' <;>
    intro hc <;> cases hc

/-! ## Inversion of the single-step lookup -/

theorem get1_str_def (n : YNode) (s : String) :
    n.get1 (.str s) =
      (if n.kind ≠ .mapping then .notFound true
      else
        match findKeyPos n.content s with
        | some i =>
          if i + 1 ≥ n.content.length then .notFound false
          else
            match n.content.get? (i + 1) with
            | some v => if v.kind = .document then .notFound false else .found v
            | none => .notFound false
        | none => .notFound false) := rfl

theorem get1_int_def (n : YNode) (i : Int) :
    n.get1 (.int i) =
      (if n.kind ≠ .sequence then .notFound true
      else if (n.content.length : Int) ≤ i then .notFound false
      else if i < 0 then .panicked
      else
        match n.content.get? i.toNat with
        | some c => if c.kind = .document then .notFound false else .found c
        | none => .panicked) := rfl

theorem get1_path_def (n : YNode) (p : List Step) :
    n.get1 (.path p) = .notFound false := rfl

theorem get1_other_def (n : YNode) (t : String) :
    n.get1 (.other t) = .notFound false := rfl

theorem get1_str_found_iff (n : YNode) (s : String) (c : YNode) :
    n.get1 (.str s) = .found c ↔
      n.kind = .mapping ∧ ∃ i, findKeyPos n.content s = some i ∧
        i + 1 < n.content.length ∧ n.content.get? (i + 1) = some c ∧
        c.kind ≠ .document := by
  rw [get1_str_def]
  constructor
  · intro h
    by_cases hk : n.kind = Kind.mapping
    · rw [if_neg (by simp [hk])] at h
      refine ⟨hk, ?_⟩
      match hf : findKeyPos n.content s with
      | none => rw [hf] at h; simp at h
      | some i =>
        rw [hf] at h
        replace h : (if i + 1 ≥ n.content.length then GetRes.notFound false
            else match n.content.get? (i + 1) with
            | some v => if v.kind = Kind.document then GetRes.notFound false else GetRes.found v
            | none => GetRes.notFound false) = GetRes.found c := h
        by_cases hlen : i + 1 ≥ n.content.length
        · rw [if_pos hlen] at h; simp at h
        · rw [if_neg hlen] at h
          match hg : n.content.get? (i + 1) with
          | none => rw [hg] at h; simp at h
          | some w =>
            rw [hg] at h
            replace h : (if w.kind = Kind.document then GetRes.notFound false
                else GetRes.found w) = GetRes.found c := h
            by_cases hd : w.kind = Kind.document
            · rw [if_pos hd] at h; simp at h
            · rw [if_neg hd] at h
              cases h
              exact ⟨i, rfl, by omega, hg, hd⟩
    · rw [if_pos (by simp [hk])] at h; simp at h
  · rintro ⟨hk, i, hf, hlen, hg, hd⟩
    rw [if_neg (by simp [hk]), hf]
    show (if i + 1 ≥ n.content.length then GetRes.notFound false else _) = _
    rw [if_neg (by omega), hg]
    show (if c.kind = Kind.document then GetRes.notFound false else _) = _
    rw [if_neg hd]

theorem get1_int_found_iff (n : YNode) (i : Int) (c : YNode) :
    n.get1 (.int i) = .found c ↔
      n.kind = .sequence ∧ 0 ≤ i ∧ n.content.get? i.toNat = some c ∧
        c.kind ≠ .document := by
  rw [get1_int_def]
  constructor
  · intro h
    by_cases hk : n.kind = Kind.sequence
    · rw [if_neg (by simp [hk])] at h
      by_cases hlen : (n.content.length : Int) ≤ i
      · rw [if_pos hlen] at h; simp at h
      · rw [if_neg hlen] at h
        by_cases hneg : i < 0
        · rw [if_pos hneg] at h; simp at h
        · rw [if_neg hneg] at h
          match hg : n.content.get? i.toNat with
          | none => rw [hg] at h; simp at h
          | some w =>
            rw [hg] at h
            replace h : (if w.kind = Kind.document then GetRes.notFound false
                else GetRes.found w) = GetRes.found c := h
            by_cases hd : w.kind = Kind.document
            · rw [if_pos hd] at h; simp at h
            · rw [if_neg hd] at h
              cases h
              exact ⟨hk, by omega, rfl, hd⟩
    · rw [if_pos (by simp [hk])] at h; simp at h
  · rintro ⟨hk, hge, hg, hd⟩
    have hlt : i.toNat < n.content.length := by
      rcases List.get?_eq_some.mp hg with ⟨hl, -⟩
      exact hl
    have hco : (i.toNat : Int) = i := Int.toNat_of_nonneg hge
    rw [if_neg (by simp [hk]), if_neg (by omega), if_neg (by omega), hg]
    show (if c.kind = Kind.document then GetRes.notFound false else _) = _
    rw [if_neg hd]

theorem get1_found_get? (n : YNode) (st : Step) (c : YNode)
    (h : n.get1 st = .found c) :
    n.content.get? (childPos n.content st) = some c := by
  match st with
  | .str s =>
    obtain ⟨-, i, hf, -, hg, -⟩ := (get1_str_found_iff n s c).mp h
    simpa [childPos, hf] using hg
  | .int i =>
    obtain ⟨-, -, hg, -⟩ := (get1_int_found_iff n i c).mp h
    simpa [childPos] using hg
  | .path _ => simp [YNode.get1] at h
  | .other _ => simp [YNode.get1] at h

theorem get1_found_mem (n : YNode) (st : Step) (c : YNode)
    (h : n.get1 st = .found c) : c ∈ n.content :=
  List.get?_mem (get1_found_get? n st c h)

theorem get?_append_plus {α : Type} (l m : List α) (j : Nat) :
    (l ++ m).get? (l.length + j) = m.get? j := by
  induction l with
  | nil => simp
  | cons a t ih => simpa [Nat.succ_add] using ih

/-! ## Behaviour of the child write -/

theorem setKeyNode_eq_mapping (n : YNode) (k : Step) (x : YNode) (f : Bool)
    (hk : n.kind = .mapping) :
    n.setKeyNode k x f = setKeyNodeMapping n k x f := by
  unfold YNode.setKeyNode
  rw [hk]

theorem setKeyNode_eq_sequence (n : YNode) (k : Step) (x : YNode) (f : Bool)
    (hk : n.kind = .sequence) :
    n.setKeyNode k x f = setKeyNodeSequence n k x f := by
  unfold YNode.setKeyNode
  rw [hk]

theorem setKeyNode_eq_other (n : YNode) (k : Step) (x : YNode) (f : Bool)
    (hk1 : n.kind ≠ .mapping) (hk2 : n.kind ≠ .sequence) :
    n.setKeyNode k x f =
      (some "node is neither sequence nor mapping node, cannot set a child value", n) := by
  unfold YNode.setKeyNode
  match hknd : n.kind with
  | .mapping => exact absurd hknd hk1
  | .sequence => exact absurd hknd hk2
  | .document => rfl
  | .scalar => rfl
  | .aliasNode => rfl

/-- After a successful `setKeyNode`, the new node sits in the content
slot the step addresses, the receiver's kind is unchanged, and any
later overwrite of that slot by a non-document node is what a single
`get` step returns. -/
theorem setKeyNode_slot (n : YNode) (st : Step) (x : YNode) (f : Bool) (n2 : YNode)
    (heven : n.kind = .mapping → n.content.length % 2 = 0)
    (hsucc : n.setKeyNode st x f = (none, n2)) :
    n2.kind = n.kind ∧
    n2.content.get? (childPos n.content st) = some x ∧
    ∀ y : YNode, y.kind ≠ .document →
      (n2.withContent (n2.content.set (childPos n.content st) y)).get1 st = .found y := by
  by_cases hm : n.kind = Kind.mapping
  · rw [setKeyNode_eq_mapping n st x f hm] at hsucc
    match st with
    | .str s =>
      replace hsucc :
          (match findKeyPos n.content s with
          | some i =>
            if i + 1 ≥ n.content.length then
              (some "found key node, but current object has no value node", n)
            else if f
                && !(compatibleKinds ((n.content.get? (i + 1)).getD nullNode) x) then
              (some "cannot change the node kind", n)
            else (none, n.withContent (n.content.set (i + 1) x))
          | none => (none, n.withContent (n.content ++ [stringNode s, x])))
          = (none, n2) := hsucc
      match hf : findKeyPos n.content s with
      | some i =>
        rw [hf] at hsucc
        replace hsucc :
            (if i + 1 ≥ n.content.length then
              (some "found key node, but current object has no value node", n)
            else if f
                && !(compatibleKinds ((n.content.get? (i + 1)).getD nullNode) x) then
              (some "cannot change the node kind", n)
            else (none, n.withContent (n.content.set (i + 1) x)))
            = (none, n2) := hsucc
        by_cases hlen : i + 1 ≥ n.content.length
        · rw [if_pos hlen] at hsucc; simp at hsucc
        · rw [if_neg hlen] at hsucc
          by_cases hcc :
              (f && !(compatibleKinds ((n.content.get? (i + 1)).getD nullNode) x)) = true
          · rw [if_pos hcc] at hsucc; simp at hsucc
          · rw [if_neg hcc] at hsucc
            cases hsucc
            have hpos : childPos n.content (.str s) = i + 1 := by simp [childPos, hf]
            rw [hpos]
            refine ⟨withContent_kind n _, ?_, ?_⟩
            · rw [withContent_content]
              exact get?_set_self _ _ _ (by omega)
            · intro y hy
              rw [withContent_content, List.set_set]
              refine (get1_str_found_iff _ s y).mpr ⟨?_, i, ?_, ?_, ?_, hy⟩
              · rw [withContent_kind, withContent_kind]; exact hm
              · rw [withContent_content]
                exact findKeyPos_set_value n.content s i y hf
              · rw [withContent_content, List.length_set]; omega
              · rw [withContent_content]
                exact get?_set_self _ _ _ (by omega)
      | none =>
        rw [hf] at hsucc
        cases hsucc
        have hpos : childPos n.content (.str s) = n.content.length + 1 := by
          simp [childPos, hf]
        rw [hpos]
        refine ⟨withContent_kind n _, ?_, ?_⟩
        · rw [withContent_content]
          exact get?_append_plus n.content [stringNode s, x] 1
        · intro y hy
          rw [withContent_content, set_append_right n.content [stringNode s, x] 1 y]
          simp only [List.set]
          refine (get1_str_found_iff _ s y).mpr
            ⟨?_, n.content.length, ?_, ?_, ?_, hy⟩
          · rw [withContent_kind, withContent_kind]; exact hm
          · rw [withContent_content,
              findKeyPos_append n.content [stringNode s, y] s (heven hm), hf]
            simp [findKeyPos, stringNode, YNode.kind, YNode.value]
          · rw [withContent_content]; simp
          · rw [withContent_content]
            exact get?_append_plus n.content [stringNode s, y] 1
    | .int i =>
      replace hsucc : (some "invalid key type, must be string", n) = (none, n2) := hsucc
      simp at hsucc
    | .path p =>
      replace hsucc : (some "invalid key type, must be string", n) = (none, n2) := hsucc
      simp at hsucc
    | .other t =>
      replace hsucc : (some "invalid key type, must be string", n) = (none, n2) := hsucc
      simp at hsucc
  · by_cases hs : n.kind = Kind.sequence
    · rw [setKeyNode_eq_sequence n st x f hs] at hsucc
      match st with
      | .int i =>
        replace hsucc :
            (if i < 0 then (some "step must be >= 0", n)
            else
              if f && !(compatibleKinds
                  (((n.content ++ List.replicate (i.toNat + 1 - n.content.length) nullNode).get?
                    i.toNat).getD nullNode) x) then
                (some "cannot change the node kind",
                  n.withContent
                    (n.content ++ List.replicate (i.toNat + 1 - n.content.length) nullNode))
              else
                (none, n.withContent
                  ((n.content ++ List.replicate (i.toNat + 1 - n.content.length) nullNode).set
                    i.toNat x)))
            = (none, n2) := hsucc
        by_cases hneg : i < 0
        · rw [if_pos hneg] at hsucc; simp at hsucc
        · rw [if_neg hneg] at hsucc
          by_cases hcc : (f && !(compatibleKinds
              (((n.content ++ List.replicate (i.toNat + 1 - n.content.length) nullNode).get?
                i.toNat).getD nullNode) x)) = true
          · rw [if_pos hcc] at hsucc; simp at hsucc
          · rw [if_neg hcc] at hsucc
            cases hsucc
            have hplen :
                i.toNat <
                  (n.content ++ List.replicate (i.toNat + 1 - n.content.length) nullNode).length := by
              simp only [List.length_append, List.length_replicate]
              omega
            have hpos : childPos n.content (.int i) = i.toNat := by simp [childPos]
            rw [hpos]
            refine ⟨withContent_kind n _, ?_, ?_⟩
            · rw [withContent_content]
              exact get?_set_self _ _ _ (by simpa using hplen)
            · intro y hy
              rw [withContent_content, List.set_set]
              refine (get1_int_found_iff _ i y).mpr ⟨?_, by omega, ?_, hy⟩
              · rw [withContent_kind, withContent_kind]; exact hs
              · rw [withContent_content]
                exact get?_set_self _ _ _ (by simpa using hplen)
      | .str s =>
        replace hsucc : (some "invalid key type, must be int", n) = (none, n2) := hsucc
        simp at hsucc
      | .path p =>
        replace hsucc : (some "invalid key type, must be int", n) = (none, n2) := hsucc
        simp at hsucc
      | .other t =>
        replace hsucc : (some "invalid key type, must be int", n) = (none, n2) := hsucc
        simp at hsucc
    · rw [setKeyNode_eq_other n st x f hm hs] at hsucc
      simp at hsucc

/-- Overwriting the content slot a successful single-step lookup used
with a non-document node is what the same lookup then returns. -/
theorem get1_found_set (n : YNode) (st : Step) (c : YNode) (h : n.get1 st = .found c)
    (y : YNode) (hy : y.kind ≠ .document) :
    (n.withContent (n.content.set (childPos n.content st) y)).get1 st = .found y := by
  match st with
  | .str s =>
    obtain ⟨hk, i, hf, hlen, hg, hd⟩ := (get1_str_found_iff n s c).mp h
    have hpos : childPos n.content (.str s) = i + 1 := by simp [childPos, hf]
    rw [hpos]
    refine (get1_str_found_iff _ s y).mpr ⟨?_, i, ?_, ?_, ?_, hy⟩
    · rw [withContent_kind]; exact hk
    · rw [withContent_content]; exact findKeyPos_set_value n.content s i y hf
    · rw [withContent_content, List.length_set]; omega
    · rw [withContent_content]; exact get?_set_self _ _ _ (by omega)
  | .int i =>
    obtain ⟨hk, hge, hg, hd⟩ := (get1_int_found_iff n i c).mp h
    have hlt : i.toNat < n.content.length := by
      rcases List.get?_eq_some.mp hg with ⟨hl, -⟩
      exact hl
    have hpos : childPos n.content (.int i) = i.toNat := by simp [childPos]
    rw [hpos]
    refine (get1_int_found_iff _ i y).mpr ⟨?_, hge, ?_, hy⟩
    · rw [withContent_kind]; exact hk
    · rw [withContent_content]; exact get?_set_self _ _ _ hlt
  | .path p => rw [get1_path_def] at h; cases h
  | .other t => rw [get1_other_def] at h; cases h

/-- `setKeyNode` only ever rewrites the receiver's content: its kind is
unchanged on every branch. -/
theorem setKeyNode_kind (n : YNode) (k : Step) (x : YNode) (f : Bool) :
    ((n.setKeyNode k x f).2).kind = n.kind := by
  unfold YNode.setKeyNode setKeyNodeMapping setKeyNodeSequence
  dsimp only
  repeat' split
  all_goals simp [withContent_kind]

/-- Definitional shape of `setAt` on a non-empty path, for rewriting. -/
theorem setAt_cons_def (n : YNode) (st : Step) (tail : List Step) (v : GoValue) (f : Bool) :
    n.setAt (st :: tail) v f =
      (match Path.Validate (st :: tail) with
      | some e => (some e, n)
      | none =>
        match tail with
        | [] => n.setKey st v f
        | _ :: _ =>
          match n.get1 st with
          | .panicked => (some "unreachable: the path was validated", n)
          | .found child =>
            let pos := childPos n.content st
            let r := child.setAt tail v f
            (r.1, n.withContent (n.content.set pos r.2))
          | .notFound incompatibleKind =>
            match
              (if incompatibleKind then
                if f then
                  .error "current node cannot be traversed into and changing the kind is disabled"
                else (createFittingEmptyNode (some st)).map (fun e => deepCopyNode n e)
              else .ok n : Except String YNode)
            with
            | .error e => (some e, n)
            | .ok n1 =>
              match createFittingEmptyNode (Path.Start tail) with
              | .error e => (some e, n1)
              | .ok newEmpty =>
                let pos := childPos n1.content st
                match n1.setKeyNode st newEmpty false with
                | (some e, n2) => (some e, n2)
                | (none, n2) =>
                  let r := newEmpty.setAt tail v f
                  (r.1, n2.withContent (n2.content.set pos r.2))) := rfl

/-- The node `setAt` leaves behind has the receiver's kind, except when a
kind mismatch made it rebuild the node as an empty mapping or sequence. -/
theorem setAt_kind (path : List Step) (n : YNode) (v : GoValue) (f : Bool) :
    ((n.setAt path v f).2).kind = n.kind ∨
    ((n.setAt path v f).2).kind = Kind.mapping ∨
    ((n.setAt path v f).2).kind = Kind.sequence := by
  match path with
  | [] => exact Or.inl rfl
  | st :: tail =>
    rw [setAt_cons_def]
    dsimp only
    split
    · exact Or.inl rfl
    · split
      · rw [show (n.setKey st v f) = n.setKeyNode st (createNode v) f from rfl]
        exact Or.inl (setKeyNode_kind n st (createNode v) f)
      · split
        · exact Or.inl rfl
        · exact Or.inl (withContent_kind n _)
        · rename_i incompatibleKind heq
          split
          · exact Or.inl rfl
          · rename_i n1 heq1
            have hn1 : n1.kind = n.kind ∨ n1.kind = Kind.mapping ∨ n1.kind = Kind.sequence := by
              split at heq1
              · split at heq1
                · cases heq1
                · match st, heq1 with
                  | .str s, heq1 =>
                    simp only [createFittingEmptyNode, Except.map] at heq1
                    cases heq1
                    rw [deepCopyNode_eq]
                    exact Or.inr (Or.inl rfl)
                  | .int i, heq1 =>
                    simp only [createFittingEmptyNode, Except.map] at heq1
                    cases heq1
                    rw [deepCopyNode_eq]
                    exact Or.inr (Or.inr rfl)
                  | .path p, heq1 =>
                    simp only [createFittingEmptyNode, Except.map] at heq1
                    cases heq1
                  | .other t, heq1 =>
                    simp only [createFittingEmptyNode, Except.map] at heq1
                    cases heq1
              · cases heq1
                exact Or.inl rfl
            split
            · exact hn1
            · rename_i newEmpty heq2
              split
              · rename_i e n2 heq3
                have : n2.kind = n1.kind := by
                  have := setKeyNode_kind n1 st newEmpty false
                  rw [heq3] at this
                  exact this
                rw [this] at *
                exact hn1
              · rename_i n2 heq3
                have hk2 : n2.kind = n1.kind := by
                  have := setKeyNode_kind n1 st newEmpty false
                  rw [heq3] at this
                  exact this
                rw [withContent_kind, hk2]
                exact hn1

end Yamled

namespace Yamled

/-! ## Round-trip of the scalar codec -/

theorem charDigit_digitChar : ∀ d : Nat, d < 10 → charDigit (digitChar d) = d := by decide

theorem isDigitChar_digitChar : ∀ d : Nat, d < 10 → isDigitChar (digitChar d) = true := by
  decide

theorem isDigitChar_dash : isDigitChar '-' = false := by decide

theorem natChars_digits (n : Nat) : ∀ c ∈ natChars n, isDigitChar c = true := by
  intro c hc
  unfold natChars at hc
  split at hc
  · simp at hc
    subst hc
    decide
  · rw [List.mem_reverse, List.mem_map] at hc
    obtain ⟨d, hd, rfl⟩ := hc
    exact isDigitChar_digitChar d (Nat.digits_lt_base (by norm_num) hd)

theorem charsNat_natChars (n : Nat) : charsNat (natChars n) = some n := by
  unfold charsNat
  rw [if_neg, if_pos]
  · congr 1
    unfold natChars
    split
    · subst n
      decide
    · rw [List.map_reverse, List.reverse_reverse, List.map_map]
      have hmd : List.map (charDigit ∘ digitChar) (Nat.digits 10 n) =
          List.map id (Nat.digits 10 n) :=
        List.map_congr_left (fun d hd =>
          charDigit_digitChar d (Nat.digits_lt_base (by norm_num) hd))
      rw [hmd, List.map_id]
      exact Nat.ofDigits_digits 10 n
  · rw [List.all_eq_true]
    intro c hc
    exact natChars_digits n c hc
  · unfold natChars
    split
    · simp
    · rename_i hn
      simp only [ne_eq, List.reverse_eq_nil_iff, List.map_eq_nil]
      exact Nat.digits_ne_nil_iff_ne_zero.mpr hn

theorem charsInt_intChars (i : Int) : charsInt (intChars i) = some i := by
  match i with
  | .ofNat n =>
    have hi : intChars (Int.ofNat n) = natChars n := rfl
    rw [hi]
    unfold charsInt
    rw [if_neg, charsNat_natChars]
    · rfl
    · intro hc
      have hmem : '-' ∈ natChars n := by
        match hh : natChars n with
        | [] => rw [hh] at hc; simp at hc
        | c :: rest =>
          rw [hh] at hc
          simp at hc
          rw [hc]
          simp
      have := natChars_digits n '-' hmem
      rw [isDigitChar_dash] at this
      cases this
  | .negSucc n =>
    have hi : intChars (Int.negSucc n) = '-' :: natChars (n + 1) := rfl
    rw [hi]
    unfold charsInt
    rw [if_pos (show ('-' :: natChars (n + 1)).head? = some '-' by rfl)]
    show (match charsNat (natChars (n + 1)) with
      | some m => if m = 0 then none else some (-(m : Int))
      | none => none) = _
    rw [charsNat_natChars]
    simp [Int.negSucc_eq]

end Yamled

namespace Yamled

mutual

theorem nodeDecode_createNode : ∀ v : GoValue, nodeDecode (createNode v) = some v
  | .vnull => rfl
  | .vbool b => by cases b <;> rfl
  | .vint i => by
    show decodeScalar "!!int" (String.mk (intChars i)) = some (.vint i)
    unfold decodeScalar
    rw [if_neg (by decide), if_neg (by decide), if_pos rfl]
    rw [show (String.mk (intChars i)).data = intChars i from rfl, charsInt_intChars]
    rfl
  | .vstr s => by
    show decodeScalar "!!str" s = some (.vstr s)
    unfold decodeScalar
    rw [if_neg (by decide), if_neg (by decide), if_neg (by decide), if_pos rfl]
  | .vlist xs => by
    show Option.map GoValue.vlist (nodesDecode (createNodes xs)) =
      some (GoValue.vlist xs)
    rw [nodesDecode_createNodes xs]
    rfl
  | .vmap kvs => by
    show Option.map GoValue.vmap (pairsDecode (createPairs kvs)) =
      some (GoValue.vmap kvs)
    rw [pairsDecode_createPairs kvs]
    rfl

theorem nodesDecode_createNodes : ∀ xs : List GoValue,
    nodesDecode (createNodes xs) = some xs
  | [] => rfl
  | v :: rest => by
    show (match nodeDecode (createNode v), nodesDecode (createNodes rest) with
      | some w, some ws => some (w :: ws)
      | _, _ => none) = some (v :: rest)
    rw [nodeDecode_createNode v, nodesDecode_createNodes rest]

theorem pairsDecode_createPairs : ∀ kvs : List (String × GoValue),
    pairsDecode (createPairs kvs) = some kvs
  | [] => rfl
  | (k, v) :: rest => by
    show (if (stringNode k).kind = .scalar ∧ (stringNode k).tag = "!!str" then
        match nodeDecode (createNode v), pairsDecode (createPairs rest) with
        | some gv, some rest' => some (((stringNode k).value, gv) :: rest')
        | _, _ => none
      else none) = some ((k, v) :: rest)
    rw [if_pos ⟨rfl, rfl⟩, nodeDecode_createNode v, pairsDecode_createPairs rest]
    rfl

end

end Yamled

namespace Yamled

/-- Core round-trip: a successful `setAt` makes the value's node
reachable by `get` along the same path, and it decodes back to the
value. -/
theorem setAt_roundtrip : ∀ (path : List Step) (n n' : YNode) (v : GoValue) (f : Bool),
    WF n → n.setAt path v f = (none, n') →
    ∃ m, n'.get path = .found m ∧ nodeDecode m = some v
  | [], n, n', v, f, _, hsucc => by
    replace hsucc : ((some "path cannot be empty" : Option String), n) = (none, n') := hsucc
    simp at hsucc
  | [st], n, n', v, f, hWF, hsucc => by
    rw [setAt_cons_def] at hsucc
    match hv : Path.Validate [st] with
    | some e =>
      rw [hv] at hsucc
      replace hsucc : ((some e : Option String), n) = (none, n') := hsucc
      simp at hsucc
    | none =>
      rw [hv] at hsucc
      replace hsucc : n.setKeyNode st (createNode v) f = (none, n') := hsucc
      obtain ⟨hkind, hget, hset⟩ :=
        setKeyNode_slot n st (createNode v) f n' (fun hm => hWF.even hm) hsucc
      refine ⟨createNode v, ?_, nodeDecode_createNode v⟩
      show n'.get1 st = .found (createNode v)
      have hres := hset (createNode v) (createNode_kind_ne_doc v)
      rw [set_self n'.content _ _ hget, withContent_self] at hres
      exact hres
  | st :: t1 :: rest, n, n', v, f, hWF, hsucc => by
    rw [setAt_cons_def] at hsucc
    match hv : Path.Validate (st :: t1 :: rest) with
    | some e =>
      rw [hv] at hsucc
      replace hsucc : ((some e : Option String), n) = (none, n') := hsucc
      simp at hsucc
    | none =>
      rw [hv] at hsucc
      match hg : n.get1 st with
      | .panicked =>
        rw [hg] at hsucc
        replace hsucc :
            ((some "unreachable: the path was validated" : Option String), n)
              = (none, n') := hsucc
        simp at hsucc
      | .found child =>
        rw [hg] at hsucc
        replace hsucc :
            ((child.setAt (t1 :: rest) v f).1,
              n.withContent (n.content.set (childPos n.content st)
                (child.setAt (t1 :: rest) v f).2)) = (none, n') := hsucc
        injection hsucc with h1 h2
        have hpair : child.setAt (t1 :: rest) v f =
            (none, (child.setAt (t1 :: rest) v f).2) := by
          rw [← h1]
        obtain ⟨m, hm, hdec⟩ := setAt_roundtrip (t1 :: rest) child _ v f
          (hWF.mem (get1_found_mem n st child hg)) hpair
        subst h2
        refine ⟨m, ?_, hdec⟩
        have hy : ((child.setAt (t1 :: rest) v f).2).kind ≠ .document := by
          have hcnd : child.kind ≠ .document := hWF.nodoc (get1_found_mem n st child hg)
          rcases setAt_kind (t1 :: rest) child v f with h | h | h <;> rw [h]
          · exact hcnd
          · intro hc; cases hc
          · intro hc; cases hc
        have hfound := get1_found_set n st child hg _ hy
        have hgetN : (n.withContent (n.content.set (childPos n.content st)
              (child.setAt (t1 :: rest) v f).2)).get (st :: t1 :: rest) =
            (match (n.withContent (n.content.set (childPos n.content st)
              (child.setAt (t1 :: rest) v f).2)).get1 st with
            | .found c => c.get (t1 :: rest)
            | r => r) := rfl
        rw [hgetN, hfound]
        exact hm
      | .notFound incompat =>
        rw [hg] at hsucc
        replace hsucc :
            (match
              (if incompat then
                if f then
                  .error "current node cannot be traversed into and changing the kind is disabled"
                else (createFittingEmptyNode (some st)).map (fun e => deepCopyNode n e)
              else .ok n : Except String YNode)
            with
            | .error e => ((some e : Option String), n)
            | .ok n1 =>
              match createFittingEmptyNode (Path.Start (t1 :: rest)) with
              | .error e => (some e, n1)
              | .ok newEmpty =>
                match n1.setKeyNode st newEmpty false with
                | (some e, n2) => (some e, n2)
                | (none, n2) =>
                  ((newEmpty.setAt (t1 :: rest) v f).1,
                    n2.withContent (n2.content.set (childPos n1.content st)
                      (newEmpty.setAt (t1 :: rest) v f).2))) = (none, n') := hsucc
        match hex :
            (if incompat then
              if f then
                .error "current node cannot be traversed into and changing the kind is disabled"
              else (createFittingEmptyNode (some st)).map (fun e => deepCopyNode n e)
            else .ok n : Except String YNode) with
        | .error e =>
          rw [hex] at hsucc
          replace hsucc : ((some e : Option String), n) = (none, n') := hsucc
          simp at hsucc
        | .ok n1 =>
          rw [hex] at hsucc
          replace hsucc :
              (match createFittingEmptyNode (Path.Start (t1 :: rest)) with
              | .error e => ((some e : Option String), n1)
              | .ok newEmpty =>
                match n1.setKeyNode st newEmpty false with
                | (some e, n2) => (some e, n2)
                | (none, n2) =>
                  ((newEmpty.setAt (t1 :: rest) v f).1,
                    n2.withContent (n2.content.set (childPos n1.content st)
                      (newEmpty.setAt (t1 :: rest) v f).2))) = (none, n') := hsucc
          have hn1 : n1 = n ∨ n1 = mappingNode ∨ n1 = sequenceNode := by
            by_cases hic : incompat = true
            · rw [if_pos hic] at hex
              by_cases hf : f = true
              · rw [if_pos hf] at hex; cases hex
              · rw [if_neg hf] at hex
                match st, hex with
                | .str s, hex =>
                  simp only [createFittingEmptyNode, Except.map] at hex
                  cases hex
                  rw [deepCopyNode_eq]
                  exact Or.inr (Or.inl rfl)
                | .int i, hex =>
                  simp only [createFittingEmptyNode, Except.map] at hex
                  cases hex
                  rw [deepCopyNode_eq]
                  exact Or.inr (Or.inr rfl)
                | .path p, hex =>
                  simp only [createFittingEmptyNode, Except.map] at hex
                  cases hex
                | .other t, hex =>
                  simp only [createFittingEmptyNode, Except.map] at hex
                  cases hex
            · rw [if_neg hic] at hex
              cases hex
              exact Or.inl rfl
          have heven1 : n1.kind = .mapping → n1.content.length % 2 = 0 := by
            rcases hn1 with h | h | h
            · rw [h]; exact fun hm => hWF.even hm
            · rw [h]; intro _; rfl
            · rw [h]; intro hc; cases hc
          match hce : createFittingEmptyNode (Path.Start (t1 :: rest)) with
          | .error e =>
            rw [hce] at hsucc
            replace hsucc : ((some e : Option String), n1) = (none, n') := hsucc
            simp at hsucc
          | .ok newEmpty =>
            rw [hce] at hsucc
            replace hsucc :
                (match n1.setKeyNode st newEmpty false with
                | (some e, n2) => ((some e : Option String), n2)
                | (none, n2) =>
                  ((newEmpty.setAt (t1 :: rest) v f).1,
                    n2.withContent (n2.content.set (childPos n1.content st)
                      (newEmpty.setAt (t1 :: rest) v f).2))) = (none, n') := hsucc
            have hneC : newEmpty.content = [] := createFittingEmptyNode_content _ _ hce
            match hsk : n1.setKeyNode st newEmpty false with
            | (some e, n2) =>
              rw [hsk] at hsucc
              replace hsucc : ((some e : Option String), n2) = (none, n') := hsucc
              simp at hsucc
            | (none, n2) =>
              rw [hsk] at hsucc
              replace hsucc :
                  ((newEmpty.setAt (t1 :: rest) v f).1,
                    n2.withContent (n2.content.set (childPos n1.content st)
                      (newEmpty.setAt (t1 :: rest) v f).2)) = (none, n') := hsucc
              injection hsucc with h1 h2
              have hpair : newEmpty.setAt (t1 :: rest) v f =
                  (none, (newEmpty.setAt (t1 :: rest) v f).2) := by
                rw [← h1]
              obtain ⟨hk2, hget2, hset2⟩ := setKeyNode_slot n1 st newEmpty false n2 heven1 hsk
              obtain ⟨m, hm, hdec⟩ := setAt_roundtrip (t1 :: rest) newEmpty _ v f
                (WF_of_nil hneC) hpair
              subst h2
              refine ⟨m, ?_, hdec⟩
              have hy : ((newEmpty.setAt (t1 :: rest) v f).2).kind ≠ .document := by
                have hkne : newEmpty.kind ≠ .document :=
                  createFittingEmptyNode_kind _ _ hce
                rcases setAt_kind (t1 :: rest) newEmpty v f with h | h | h <;> rw [h]
                · exact hkne
                · intro hc; cases hc
                · intro hc; cases hc
              have hfound := hset2 _ hy
              have hgetN : (n2.withContent (n2.content.set (childPos n1.content st)
                    (newEmpty.setAt (t1 :: rest) v f).2)).get (st :: t1 :: rest) =
                  (match (n2.withContent (n2.content.set (childPos n1.content st)
                    (newEmpty.setAt (t1 :: rest) v f).2)).get1 st with
                  | .found c => c.get (t1 :: rest)
                  | r => r) := rfl
              rw [hgetN, hfound]
              exact hm

end Yamled

namespace Yamled

/-! ## Reads thread the tree through unchanged -/

theorem getSt_eq : ∀ (steps : List Step) (n : YNode), n.getSt steps = (n.get steps, n)
  | [], n => rfl
  | [st], n => rfl
  | st :: t1 :: rest, n => by
    show (match n.get1 st with
      | .found child =>
        ((child.getSt (t1 :: rest)).1,
          n.withContent (n.content.set (childPos n.content st) (child.getSt (t1 :: rest)).2))
      | r => (r, n)) = (n.get (st :: t1 :: rest), n)
    have hdef : n.get (st :: t1 :: rest) =
        (match n.get1 st with
        | .found c => c.get (t1 :: rest)
        | r => r) := rfl
    rw [hdef]
    match hg : n.get1 st with
    | .found child =>
      show ((child.getSt (t1 :: rest)).1,
          n.withContent (n.content.set (childPos n.content st) (child.getSt (t1 :: rest)).2))
        = (child.get (t1 :: rest), n)
      rw [getSt_eq (t1 :: rest) child]
      rw [set_self n.content _ child (get1_found_get? n st child hg), withContent_self]
    | .notFound b => rfl
    | .panicked => rfl

theorem GetSt_eq (n : YNode) (steps : List Step) : n.GetSt steps = (n.Get steps, n) := by
  unfold YNode.GetSt YNode.Get
  rw [getSt_eq]
  cases n.get steps <;> rfl

theorem MustGetSt_eq (n : YNode) (steps : List Step) :
    n.MustGetSt steps = (n.MustGet steps, n) := by
  unfold YNode.MustGetSt YNode.MustGet
  rw [getSt_eq]
  cases n.get steps <;> rfl

theorem GetKeySt_eq (n : YNode) (steps : List Step) :
    n.GetKeySt steps = (n.GetKey steps, n) := by
  match steps with
  | [] => rfl
  | s0 :: srest =>
    unfold YNode.GetKeySt YNode.GetKey
    by_cases hl : (s0 :: srest).length > 1
    · rw [if_pos hl, if_pos hl, getSt_eq]
      cases n.get (s0 :: srest).dropLast <;> rfl
    · rw [if_neg hl, if_neg hl]

end Yamled

namespace Yamled

/-! ## Paths reached by a successful lookup validate -/

theorem get_cons_found (n t : YNode) (st t1 : Step) (rest : List Step)
    (h : n.get (st :: t1 :: rest) = .found t) :
    ∃ c, n.get1 st = .found c ∧ c.get (t1 :: rest) = .found t := by
  have hdef : n.get (st :: t1 :: rest) =
      (match n.get1 st with
      | .found c => c.get (t1 :: rest)
      | r => r) := rfl
  rw [hdef] at h
  match hg : n.get1 st with
  | .found c =>
    rw [hg] at h
    exact ⟨c, rfl, h⟩
  | .notFound b => rw [hg] at h; cases h
  | .panicked => rw [hg] at h; cases h

theorem get1_found_validateErrors (n t : YNode) (st : Step)
    (h : n.get1 st = .found t) : validateErrors [st] = [] := by
  match st with
  | .str s => rfl
  | .int i =>
    obtain ⟨-, hge, -, -⟩ := (get1_int_found_iff n i t).mp h
    unfold validateErrors
    rw [if_neg (by omega)]
    rfl
  | .path p => rw [get1_path_def] at h; cases h
  | .other tn => rw [get1_other_def] at h; cases h

theorem validateErrors_cons (st : Step) (rest : List Step) :
    validateErrors (st :: rest) = validateErrors [st] ++ validateErrors rest := by
  match st with
  | .str s => rfl
  | .int i =>
    show (if i < 0 then [toString i ++ " is invalid, steps must be >= 0"] else [])
        ++ validateErrors rest =
      ((if i < 0 then [toString i ++ " is invalid, steps must be >= 0"] else []) ++ [])
        ++ validateErrors rest
    rw [List.append_nil]
  | .path p => rfl
  | .other tn => rfl

theorem get_found_validateErrors : ∀ (P : List Step) (n t : YNode),
    n.get P = .found t → validateErrors P = []
  | [], n, t, h => by cases h
  | [st], n, t, h => get1_found_validateErrors n t st h
  | st :: t1 :: rest, n, t, h => by
    obtain ⟨c, hg, hrest⟩ := get_cons_found n t st t1 rest h
    rw [validateErrors_cons]
    rw [get1_found_validateErrors n c st hg,
      get_found_validateErrors (t1 :: rest) c t hrest]
    rfl

theorem get_found_validate (P : List Step) (n t : YNode)
    (h : n.get P = .found t) : Path.Validate P = none := by
  unfold Path.Validate
  rw [get_found_validateErrors P n t h]

/-! ## Writes at an existing target -/

/-- `setKey` at a key whose target exists: the kind check against the
existing value decides between the kind error and overwriting the slot. -/
theorem setKey_found (n : YNode) (k : Step) (v : GoValue) (t : YNode) (f : Bool)
    (h : n.get1 k = .found t) :
    n.setKey k v f =
      (if f && !(compatibleKinds t (createNode v)) then
        (some "cannot change the node kind", n)
      else (none,
        n.withContent (n.content.set (childPos n.content k) (createNode v)))) := by
  match k with
  | .str s =>
    obtain ⟨hk, i, hf, hlen, hg, hd⟩ := (get1_str_found_iff n s t).mp h
    show n.setKeyNode (.str s) (createNode v) f = _
    rw [setKeyNode_eq_mapping n _ _ f hk]
    show (match findKeyPos n.content s with
      | some i =>
        if i + 1 ≥ n.content.length then
          (some "found key node, but current object has no value node", n)
        else if f
            && !(compatibleKinds ((n.content.get? (i + 1)).getD nullNode) (createNode v)) then
          (some "cannot change the node kind", n)
        else (none, n.withContent (n.content.set (i + 1) (createNode v)))
      | none =>
        (none, n.withContent (n.content ++ [stringNode s, createNode v]))) = _
    rw [hf]
    show (if i + 1 ≥ n.content.length then
        (some "found key node, but current object has no value node", n)
      else if f
          && !(compatibleKinds ((n.content.get? (i + 1)).getD nullNode) (createNode v)) then
        (some "cannot change the node kind", n)
      else (none, n.withContent (n.content.set (i + 1) (createNode v)))) = _
    rw [if_neg (by omega), hg]
    have hpos : childPos n.content (.str s) = i + 1 := by simp [childPos, hf]
    rw [hpos]
    rfl
  | .int i =>
    obtain ⟨hk, hge, hg, hd⟩ := (get1_int_found_iff n i t).mp h
    have hlt : i.toNat < n.content.length := by
      rcases List.get?_eq_some.mp hg with ⟨hl, -⟩
      exact hl
    show n.setKeyNode (.int i) (createNode v) f = _
    rw [setKeyNode_eq_sequence n _ _ f hk]
    show (if i < 0 then (some "step must be >= 0", n)
      else
        if f && !(compatibleKinds
            (((n.content ++ List.replicate (i.toNat + 1 - n.content.length) nullNode).get?
              i.toNat).getD nullNode) (createNode v)) then
          (some "cannot change the node kind",
            n.withContent
              (n.content ++ List.replicate (i.toNat + 1 - n.content.length) nullNode))
        else
          (none, n.withContent
            ((n.content ++ List.replicate (i.toNat + 1 - n.content.length) nullNode).set
              i.toNat (createNode v)))) = _
    rw [if_neg (by omega)]
    have hpad : i.toNat + 1 - n.content.length = 0 := by omega
    rw [hpad]
    simp only [List.replicate, List.append_nil]
    rw [hg, withContent_self]
    have hpos : childPos n.content (.int i) = i.toNat := by simp [childPos]
    rw [hpos]
    rfl
  | .path p => rw [get1_path_def] at h; cases h
  | .other tn => rw [get1_other_def] at h; cases h

end Yamled

namespace Yamled

/-- `setAt` along a fully existing path: the only possible failure is
the kind check against the existing target at the end of the path. -/
theorem get_found_setAt : ∀ (P : List Step) (n t : YNode) (v : GoValue) (f : Bool),
    WF n → n.get P = .found t →
    (n.setAt P v f).1 =
      (if f && !(compatibleKinds t (createNode v)) then
        some "cannot change the node kind"
      else none)
  | [], n, t, v, f, _, h => by cases h
  | [st], n, t, v, f, hWF, h => by
    have hv : Path.Validate [st] = none := get_found_validate [st] n t h
    rw [setAt_cons_def, hv]
    show (n.setKey st v f).1 = _
    rw [setKey_found n st v t f h]
    by_cases hc : (f && !(compatibleKinds t (createNode v))) = true
    · rw [if_pos hc, if_pos hc]
    · rw [if_neg hc, if_neg hc]
  | st :: t1 :: rest, n, t, v, f, hWF, h => by
    have hv : Path.Validate (st :: t1 :: rest) = none := get_found_validate _ n t h
    obtain ⟨c, hg, hrest⟩ := get_cons_found n t st t1 rest h
    rw [setAt_cons_def, hv, hg]
    show (c.setAt (t1 :: rest) v f).1 = _
    exact get_found_setAt (t1 :: rest) c t v f
      (hWF.mem (get1_found_mem n st c hg)) hrest

end Yamled

namespace Yamled

/-! ## Claim theorems -/

/-- C1: for every well-formed tree, path and value, if the kind-preserving
`SetAt` succeeds then an immediately following `Get` with the same steps
reports found and returns a node that decodes back to the value. -/
theorem C1_setAt_then_get_roundtrip (n : YNode) (path : List Step) (v : GoValue)
    (n' : YNode) (hWF : WF n) (hsucc : n.SetAt path v = (none, n')) :
    ∃ m, n'.Get path = (some m, true) ∧ nodeDecode m = some v := by
  obtain ⟨m, hm, hdec⟩ := setAt_roundtrip path n n' v true hWF hsucc
  refine ⟨m, ?_, hdec⟩
  unfold YNode.Get
  rw [hm]

theorem C1_witness :
    WF mappingNode ∧
    mappingNode.SetAt [Step.str "a", Step.int 0] (GoValue.vstr "x") =
      (none, (mappingNode.SetAt [Step.str "a", Step.int 0] (GoValue.vstr "x")).2) ∧
    ∃ m, ((mappingNode.SetAt [Step.str "a", Step.int 0] (GoValue.vstr "x")).2).Get
        [Step.str "a", Step.int 0] = (some m, true) ∧
      nodeDecode m = some (GoValue.vstr "x") :=
  ⟨WF_mappingNode, rfl,
    C1_setAt_then_get_roundtrip mappingNode [Step.str "a", Step.int 0]
      (GoValue.vstr "x") _ WF_mappingNode rfl⟩

/-- C7: a multi-step `Get` equals running the first step and, on success,
running `Get` on the returned node with the remaining steps; when the
first step is not found the whole call is not found. -/
theorem C7_get_chaining :
    (∀ (n c : YNode) (st : Step) (rest : List Step), rest ≠ [] →
      n.Get [st] = (some c, true) → n.Get (st :: rest) = c.Get rest)
  ∧ (∀ (n : YNode) (st : Step) (rest : List Step), rest ≠ [] →
      (n.Get [st]).2 = false → n.Get (st :: rest) = (none, false)) := by
  constructor
  · intro n c st rest hne hget
    match rest with
    | [] => exact absurd rfl hne
    | r1 :: rs =>
      have hg : n.get1 st = .found c := by
        unfold YNode.Get at hget
        match hgg : n.get [st] with
        | .found c' =>
          rw [hgg] at hget
          have hc : c' = c := by
            injection hget with h1 h2
            injection h1
          rw [hc] at hgg
          exact hgg
        | .notFound b => rw [hgg] at hget; simp at hget
        | .panicked => rw [hgg] at hget; simp at hget
      unfold YNode.Get
      have hdef : n.get (st :: r1 :: rs) =
          (match n.get1 st with
          | .found x => x.get (r1 :: rs)
          | r => r) := rfl
      rw [hdef, hg]
  · intro n st rest hne hget
    match rest with
    | [] => exact absurd rfl hne
    | r1 :: rs =>
      unfold YNode.Get at hget
      unfold YNode.Get
      have hdef : n.get (st :: r1 :: rs) =
          (match n.get1 st with
          | .found x => x.get (r1 :: rs)
          | r => r) := rfl
      rw [hdef]
      match hgg : n.get1 st with
      | .found c' =>
        rw [show n.get [st] = n.get1 st from rfl, hgg] at hget
        simp at hget
      | .notFound b => rfl
      | .panicked => rfl

theorem C7_witness :
    ([Step.str "bar"] : List Step) ≠ [] ∧
    exRoot.Get [Step.str "foo"] = (some exInner, true) ∧
    exRoot.Get [Step.str "foo", Step.str "bar"] = exInner.Get [Step.str "bar"] :=
  ⟨by simp, rfl,
    C7_get_chaining.1 exRoot exInner (Step.str "foo") [Step.str "bar"] (by simp) rfl⟩

/-- C10: the read operations Get, MustGet and GetKey leave the tree they
ran on unchanged: their state-threaded forms return the input tree
identically, alongside the same result the pure reads compute. -/
theorem C10_reads_pure :
    (∀ (n : YNode) (steps : List Step), n.GetSt steps = (n.Get steps, n))
  ∧ (∀ (n : YNode) (steps : List Step), n.MustGetSt steps = (n.MustGet steps, n))
  ∧ (∀ (n : YNode) (steps : List Step), n.GetKeySt steps = (n.GetKey steps, n)) :=
  ⟨fun n steps => GetSt_eq n steps,
    fun n steps => MustGetSt_eq n steps,
    fun n steps => GetKeySt_eq n steps⟩

/-- C8: the claim says `Prepend` inserts exactly one step before the
existing steps.  The source (`append(s, p)`) instead appends the whole
receiver path as one nested step: prepending x to the path a, b yields
the two-element path x, path(a, b), not the three-element path x, a, b. -/
theorem C8_prepend_nests_receiver :
    Path.Prepend [Step.str "a", Step.str "b"] [Step.str "x"]
      = [Step.str "x", Step.path [Step.str "a", Step.str "b"]]
    ∧ (Path.Prepend [Step.str "a", Step.str "b"] [Step.str "x"]).length = 2
    ∧ Path.Prepend [Step.str "a", Step.str "b"] [Step.str "x"]
      ≠ [Step.str "x", Step.str "a", Step.str "b"] := by
  refine ⟨rfl, rfl, ?_⟩
  intro h
  have hlen := congrArg List.length h
  simp [Path.Prepend] at hlen

/-- C9: the claim says `Bytes(w)` encodes with indentation width `w`.
`document.Bytes` in document.go hardcodes `SetIndent(2)`, so width 4
still produces two-space indentation, while the corrected revision
(part_002, matching `node.Bytes`) honours the width. -/
theorem C9_document_bytes_ignores_width :
    document_Bytes 4 exDoc = "foo:\n  bar: x\n"
    ∧ document_Bytes_fixed 4 exDoc = "foo:\n    bar: x\n"
    ∧ document_Bytes 4 exDoc ≠ document_Bytes_fixed 4 exDoc := by
  refine ⟨rfl, rfl, ?_⟩
  intro h
  rw [show document_Bytes 4 exDoc = "foo:\n  bar: x\n" from rfl,
    show document_Bytes_fixed 4 exDoc = "foo:\n    bar: x\n" from rfl] at h
  exact absurd h (by decide)

end Yamled

namespace Yamled

/-- C2: single-step Get semantics: an empty step list is not found; a
string step on a non-mapping is not found; on a mapping the first key
node (in scan order) whose text equals the step selects the paired
value; no match is not found; an integer step on a non-sequence is not
found; on a sequence an in-bounds index returns that element and an
index at or past the length is not found. -/
theorem C2_get_single_step :
    (∀ n : YNode, n.Get [] = (none, false))
  ∧ (∀ (n : YNode) (s : String), n.kind ≠ .mapping → n.Get [Step.str s] = (none, false))
  ∧ (∀ (n : YNode) (s : String) (i : Nat) (v : YNode),
      n.kind = .mapping → n.content.length % 2 = 0 →
      (∀ c ∈ n.content, c.kind ≠ .document) →
      firstKeyMatch n.content s i → n.content.get? (i + 1) = some v →
      n.Get [Step.str s] = (some v, true))
  ∧ (∀ (n : YNode) (s : String), n.kind = .mapping →
      (∀ j, ¬keyMatchAt n.content s j) → n.Get [Step.str s] = (none, false))
  ∧ (∀ (n : YNode) (i : Int), n.kind ≠ .sequence → n.Get [Step.int i] = (none, false))
  ∧ (∀ (n : YNode) (i : Int) (c : YNode), n.kind = .sequence →
      (∀ w ∈ n.content, w.kind ≠ .document) → 0 ≤ i →
      n.content.get? i.toNat = some c → n.Get [Step.int i] = (some c, true))
  ∧ (∀ (n : YNode) (i : Int), n.kind = .sequence → (n.content.length : Int) ≤ i →
      n.Get [Step.int i] = (none, false)) := by
  refine ⟨fun n => rfl, ?_, ?_, ?_, ?_, ?_, ?_⟩
  · intro n s hk
    have hg1 : n.get1 (.str s) = .notFound true := by
      rw [get1_str_def, if_pos (by simp [hk])]
    unfold YNode.Get
    rw [show n.get [Step.str s] = n.get1 (.str s) from rfl, hg1]
  · intro n s i v hk heven hnodoc hfirst hg
    obtain ⟨hpar, k, hk', -, -⟩ := hfirst.1
    have hilen : i < n.content.length := by
      rcases List.get?_eq_some.mp hk' with ⟨hl, -⟩
      exact hl
    have hg1 : n.get1 (.str s) = .found v :=
      (get1_str_found_iff n s v).mpr
        ⟨hk, i, firstKeyMatch_findKeyPos n.content s i hfirst.1 hfirst.2,
          by omega, hg, hnodoc v (List.get?_mem hg)⟩
    unfold YNode.Get
    rw [show n.get [Step.str s] = n.get1 (.str s) from rfl, hg1]
  · intro n s hk hnom
    have hg1 : n.get1 (.str s) = .notFound false := by
      rw [get1_str_def, if_neg (by simp [hk]), noKeyMatch_findKeyPos n.content s hnom]
    unfold YNode.Get
    rw [show n.get [Step.str s] = n.get1 (.str s) from rfl, hg1]
  · intro n i hk
    have hg1 : n.get1 (.int i) = .notFound true := by
      rw [get1_int_def, if_pos (by simp [hk])]
    unfold YNode.Get
    rw [show n.get [Step.int i] = n.get1 (.int i) from rfl, hg1]
  · intro n i c hk hnodoc hge hg
    have hg1 : n.get1 (.int i) = .found c :=
      (get1_int_found_iff n i c).mpr ⟨hk, hge, hg, hnodoc c (List.get?_mem hg)⟩
    unfold YNode.Get
    rw [show n.get [Step.int i] = n.get1 (.int i) from rfl, hg1]
  · intro n i hk hlen
    have hg1 : n.get1 (.int i) = .notFound false := by
      rw [get1_int_def, if_neg (by simp [hk]), if_pos hlen]
    unfold YNode.Get
    rw [show n.get [Step.int i] = n.get1 (.int i) from rfl, hg1]

end Yamled

namespace Yamled

theorem C2_witness :
    exInner.kind = .mapping ∧ exInner.content.length % 2 = 0 ∧
    firstKeyMatch exInner.content "bar" 0 ∧
    exInner.content.get? 1 = some (stringNode "x") ∧
    exInner.Get [Step.str "bar"] = (some (stringNode "x"), true) := by
  have hfirst : firstKeyMatch exInner.content "bar" 0 :=
    ⟨⟨rfl, stringNode "bar", rfl, rfl, rfl⟩, fun j hj => absurd hj (by omega)⟩
  refine ⟨rfl, rfl, hfirst, rfl,
    C2_get_single_step.2.2.1 exInner "bar" 0 (stringNode "x") rfl rfl ?_ hfirst rfl⟩
  intro c hc
  simp only [exInner, YNode.content, List.mem_cons, List.not_mem_nil, or_false] at hc
  rcases hc with rfl | rfl <;> (intro hk; cases hk)

theorem compatibleKinds_null_left (b : YNode) : compatibleKinds nullNode b = true := by
  simp [compatibleKinds, isNullNode, nullNode, YNode.kind, YNode.tag]

/-- C4: a mapping child write overwrites the value slot paired with the
first existing matching key (subject to the kind-change policy when
kind-preserving), and appends a fresh key/value pair at the end when no
key matches, leaving all pre-existing entries in place. -/
theorem C4_mapping_child_write :
    (∀ (n : YNode) (s : String) (v : GoValue) (f : Bool) (i : Nat) (vOld : YNode),
      n.kind = .mapping →
      firstKeyMatch n.content s i → n.content.get? (i + 1) = some vOld →
      ((f = false ∨ compatibleKinds vOld (createNode v) = true) →
        n.setKey (Step.str s) v f =
          (none, n.withContent (n.content.set (i + 1) (createNode v))))
      ∧ (f = true → compatibleKinds vOld (createNode v) = false →
        n.setKey (Step.str s) v f = (some "cannot change the node kind", n)))
  ∧ (∀ (n : YNode) (s : String) (v : GoValue) (f : Bool), n.kind = .mapping →
      (∀ j, ¬keyMatchAt n.content s j) →
      n.setKey (Step.str s) v f =
        (none, n.withContent (n.content ++ [stringNode s, createNode v]))) := by
  constructor
  · intro n s v f i vOld hk hfirst hg
    have hf : findKeyPos n.content s = some i :=
      firstKeyMatch_findKeyPos n.content s i hfirst.1 hfirst.2
    have hlt : i + 1 < n.content.length := by
      rcases List.get?_eq_some.mp hg with ⟨hl, -⟩
      exact hl
    have hbase : n.setKey (Step.str s) v f =
        (if f && !(compatibleKinds vOld (createNode v)) then
          (some "cannot change the node kind", n)
        else (none, n.withContent (n.content.set (i + 1) (createNode v)))) := by
      show n.setKeyNode (.str s) (createNode v) f = _
      rw [setKeyNode_eq_mapping n _ _ f hk]
      show (match findKeyPos n.content s with
        | some i =>
          if i + 1 ≥ n.content.length then
            (some "found key node, but current object has no value node", n)
          else if f
              && !(compatibleKinds ((n.content.get? (i + 1)).getD nullNode) (createNode v)) then
            (some "cannot change the node kind", n)
          else (none, n.withContent (n.content.set (i + 1) (createNode v)))
        | none =>
          (none, n.withContent (n.content ++ [stringNode s, createNode v]))) = _
      rw [hf]
      show (if i + 1 ≥ n.content.length then
          (some "found key node, but current object has no value node", n)
        else if f
            && !(compatibleKinds ((n.content.get? (i + 1)).getD nullNode) (createNode v)) then
          (some "cannot change the node kind", n)
        else (none, n.withContent (n.content.set (i + 1) (createNode v)))) = _
      rw [if_neg (by omega), hg]
      rfl
    constructor
    · intro hok
      rw [hbase, if_neg]
      rcases hok with rfl | hc
      · simp
      · simp [hc]
    · intro hforb hc
      rw [hbase, if_pos]
      rw [hforb, hc]
      rfl
  · intro n s v f hk hnom
    show n.setKeyNode (.str s) (createNode v) f = _
    rw [setKeyNode_eq_mapping n _ _ f hk]
    show (match findKeyPos n.content s with
      | some i =>
        if i + 1 ≥ n.content.length then
          (some "found key node, but current object has no value node", n)
        else if f
            && !(compatibleKinds ((n.content.get? (i + 1)).getD nullNode) (createNode v)) then
          (some "cannot change the node kind", n)
        else (none, n.withContent (n.content.set (i + 1) (createNode v)))
      | none =>
        (none, n.withContent (n.content ++ [stringNode s, createNode v]))) = _
    rw [noKeyMatch_findKeyPos n.content s hnom]

theorem C4_witness :
    exInner.kind = .mapping ∧ firstKeyMatch exInner.content "bar" 0 ∧
    exInner.content.get? 1 = some (stringNode "x") ∧
    compatibleKinds (stringNode "x") (createNode (GoValue.vstr "y")) = true ∧
    exInner.setKey (Step.str "bar") (GoValue.vstr "y") true =
      (none, exInner.withContent (exInner.content.set 1 (createNode (GoValue.vstr "y")))) := by
  have hfirst : firstKeyMatch exInner.content "bar" 0 :=
    ⟨⟨rfl, stringNode "bar", rfl, rfl, rfl⟩, fun j hj => absurd hj (by omega)⟩
  exact ⟨rfl, hfirst, rfl, rfl,
    (C4_mapping_child_write.1 exInner "bar" (GoValue.vstr "y") true 0 (stringNode "x")
      rfl hfirst rfl).1 (Or.inr rfl)⟩

end Yamled

namespace Yamled

theorem get?_replicate {α : Type} (a : α) (nrep j : Nat) (h : j < nrep) :
    (List.replicate nrep a).get? j = some a := by
  induction nrep generalizing j with
  | zero => omega
  | succ m ih =>
    cases j with
    | zero => rfl
    | succ j' =>
      show (List.replicate m a).get? j' = some a
      exact ih j' (by omega)

/-- C5: a sequence child write at an index at or past the length pads
with null scalars until the index exists, then sets it (the padding is
always kind-compatible, so this succeeds); the resulting content has
length index+1 with nulls in the padded region, and no sequence child
write ever shrinks the content. -/
theorem C5_sequence_write_pads :
    (∀ (n : YNode) (i : Int) (v : GoValue) (f : Bool),
      n.kind = .sequence → (n.content.length : Int) ≤ i →
      n.setKey (Step.int i) v f =
        (none, n.withContent
          ((n.content ++ List.replicate (i.toNat + 1 - n.content.length) nullNode).set
            i.toNat (createNode v)))
      ∧ ((n.setKey (Step.int i) v f).2).content.length = i.toNat + 1
      ∧ (∀ j : Nat, n.content.length ≤ j → j < i.toNat →
        ((n.setKey (Step.int i) v f).2).content.get? j = some nullNode))
  ∧ (∀ (n : YNode) (st : Step) (v : GoValue) (f : Bool), n.kind = .sequence →
      n.content.length ≤ ((n.setKey st v f).2).content.length) := by
  constructor
  · intro n i v f hk hlen
    have hge : (0 : Int) ≤ i := by omega
    have hlenN : n.content.length ≤ i.toNat := by omega
    have hpdget :
        (n.content ++ List.replicate (i.toNat + 1 - n.content.length) nullNode).get?
          i.toNat = some nullNode := by
      have hsplit : i.toNat = n.content.length + (i.toNat - n.content.length) := by omega
      rw [hsplit, get?_append_plus]
      exact get?_replicate nullNode _ _ (by omega)
    have hmain : n.setKey (Step.int i) v f =
        (none, n.withContent
          ((n.content ++ List.replicate (i.toNat + 1 - n.content.length) nullNode).set
            i.toNat (createNode v))) := by
      show n.setKeyNode (.int i) (createNode v) f = _
      rw [setKeyNode_eq_sequence n _ _ f hk]
      show (if i < 0 then (some "step must be >= 0", n)
        else
          if f && !(compatibleKinds
              (((n.content ++ List.replicate (i.toNat + 1 - n.content.length) nullNode).get?
                i.toNat).getD nullNode) (createNode v)) then
            (some "cannot change the node kind",
              n.withContent
                (n.content ++ List.replicate (i.toNat + 1 - n.content.length) nullNode))
          else
            (none, n.withContent
              ((n.content ++ List.replicate (i.toNat + 1 - n.content.length) nullNode).set
                i.toNat (createNode v)))) = _
      rw [if_neg (by omega), hpdget]
      rw [if_neg (by simp [compatibleKinds_null_left])]
    refine ⟨hmain, ?_, ?_⟩
    · rw [hmain, withContent_content, List.length_set]
      simp only [List.length_append, List.length_replicate]
      omega
    · intro j hj1 hj2
      rw [hmain, withContent_content, get?_set_other _ _ _ _ (by omega)]
      have hsplit : j = n.content.length + (j - n.content.length) := by omega
      rw [hsplit, get?_append_plus]
      exact get?_replicate nullNode _ _ (by omega)
  · intro n st v f hk
    match st with
    | .int i =>
      have h2 : (n.setKey (Step.int i) v f).2 =
          (setKeyNodeSequence n (Step.int i) (createNode v) f).2 := by
        rw [show n.setKey (Step.int i) v f = n.setKeyNode (Step.int i) (createNode v) f
          from rfl, setKeyNode_eq_sequence n _ _ f hk]
      rw [h2]
      show n.content.length ≤
        ((if i < 0 then (some "step must be >= 0", n)
        else
          if f && !(compatibleKinds
              (((n.content ++ List.replicate (i.toNat + 1 - n.content.length) nullNode).get?
                i.toNat).getD nullNode) (createNode v)) then
            (some "cannot change the node kind",
              n.withContent
                (n.content ++ List.replicate (i.toNat + 1 - n.content.length) nullNode))
          else
            (none, n.withContent
              ((n.content ++ List.replicate (i.toNat + 1 - n.content.length) nullNode).set
                i.toNat (createNode v)))).2).content.length
      by_cases hneg : i < 0
      · rw [if_pos hneg]
      · rw [if_neg hneg]
        by_cases hcc : (f && !(compatibleKinds
            (((n.content ++ List.replicate (i.toNat + 1 - n.content.length) nullNode).get?
              i.toNat).getD nullNode) (createNode v))) = true
        · rw [if_pos hcc]
          show n.content.length ≤
            (n.withContent
              (n.content ++ List.replicate (i.toNat + 1 - n.content.length) nullNode)).content.length
          rw [withContent_content]
          simp
        · rw [if_neg hcc]
          show n.content.length ≤
            (n.withContent
              ((n.content ++ List.replicate (i.toNat + 1 - n.content.length) nullNode).set
                i.toNat (createNode v))).content.length
          rw [withContent_content, List.length_set]
          simp
    | .str s =>
      have h2 : (n.setKey (Step.str s) v f).2 =
          (setKeyNodeSequence n (Step.str s) (createNode v) f).2 := by
        rw [show n.setKey (Step.str s) v f = n.setKeyNode (Step.str s) (createNode v) f
          from rfl, setKeyNode_eq_sequence n _ _ f hk]
      rw [h2]
      exact Nat.le.refl
    | .path p =>
      have h2 : (n.setKey (Step.path p) v f).2 =
          (setKeyNodeSequence n (Step.path p) (createNode v) f).2 := by
        rw [show n.setKey (Step.path p) v f = n.setKeyNode (Step.path p) (createNode v) f
          from rfl, setKeyNode_eq_sequence n _ _ f hk]
      rw [h2]
      exact Nat.le.refl
    | .other tn =>
      have h2 : (n.setKey (Step.other tn) v f).2 =
          (setKeyNodeSequence n (Step.other tn) (createNode v) f).2 := by
        rw [show n.setKey (Step.other tn) v f = n.setKeyNode (Step.other tn) (createNode v) f
          from rfl, setKeyNode_eq_sequence n _ _ f hk]
      rw [h2]
      exact Nat.le.refl

theorem C5_witness :
    sequenceNode.kind = .sequence ∧
    ((sequenceNode.content.length : Int) ≤ 1) ∧
    sequenceNode.setKey (Step.int 1) (GoValue.vstr "a") true =
      (none, sequenceNode.withContent
        ((sequenceNode.content ++
          List.replicate ((1 : Int).toNat + 1 - sequenceNode.content.length) nullNode).set
          (1 : Int).toNat (createNode (GoValue.vstr "a")))) ∧
    ((sequenceNode.setKey (Step.int 1) (GoValue.vstr "a") true).2).content.length = 2 := by
  have h := C5_sequence_write_pads.1 sequenceNode 1 (GoValue.vstr "a") true rfl (by decide)
  exact ⟨rfl, by decide, h.1, h.2.1⟩

end Yamled

namespace Yamled

/-- C6: DeleteKey silently succeeds without modifying the tree when the
parent of the final step does not exist; on a mapping it removes the
matching key node and its paired value node as a unit, keeping the
remaining entries in order; on a sequence it removes the element at the
index, shifting later elements left; a step whose type does not match
the node's kind is a silent no-op; an unsupported step type is an error
naming that type. -/
theorem C6_delete_key :
    (∀ (n : YNode) (s0 s1 : Step) (srest : List Step) (b : Bool),
      n.get ((s0 :: s1 :: srest).dropLast) = .notFound b →
      n.DeleteKey (s0 :: s1 :: srest) = (.ok, n))
  ∧ (∀ (n : YNode) (s : String) (i : Nat), n.kind = .mapping →
      firstKeyMatch n.content s i → i + 1 < n.content.length →
      n.DeleteKey [Step.str s] =
        (.ok, n.withContent (n.content.take i ++ n.content.drop (i + 2))))
  ∧ (∀ (n : YNode) (i : Int), n.kind = .sequence → 0 ≤ i →
      i < (n.content.length : Int) →
      n.DeleteKey [Step.int i] =
        (.ok, n.withContent (n.content.take i.toNat ++ n.content.drop (i.toNat + 1))))
  ∧ (∀ (n : YNode) (s : String), n.kind ≠ .mapping → n.DeleteKey [Step.str s] = (.ok, n))
  ∧ (∀ (n : YNode) (i : Int), n.kind ≠ .sequence → n.DeleteKey [Step.int i] = (.ok, n))
  ∧ (∀ (n : YNode) (p : List Step),
      n.DeleteKey [Step.path p] =
        (.err ("cannot handle " ++ stepTypeName (Step.path p) ++ " steps"), n))
  ∧ (∀ (n : YNode) (tn : String),
      n.DeleteKey [Step.other tn] =
        (.err ("cannot handle " ++ tn ++ " steps"), n)) := by
  refine ⟨?_, ?_, ?_, ?_, ?_, fun n p => rfl, fun n tn => rfl⟩
  · intro n s0 s1 srest b h
    show (match n.get ((s0 :: s1 :: srest).dropLast) with
      | .found parent =>
        ((parent.deleteKey1 (((s0 :: s1 :: srest).getLast?).getD (.other ""))).1,
          replaceAtPath n ((s0 :: s1 :: srest).dropLast)
            (parent.deleteKey1 (((s0 :: s1 :: srest).getLast?).getD (.other ""))).2)
      | .panicked => (.panicked, n)
      | .notFound _ => (.ok, n)) = ((DelRes.ok : DelRes), n)
    rw [h]
  · intro n s i hk hfirst hlen
    show n.deleteKey1 (.str s) = _
    show (if n.kind ≠ .mapping then ((DelRes.ok : DelRes), n)
      else
        match findKeyPos n.content s with
        | some i =>
          if i + 1 ≥ n.content.length then (.ok, n)
          else (.ok, n.withContent (n.content.take i ++ n.content.drop (i + 2)))
        | none => (.ok, n)) = _
    rw [if_neg (by simp [hk]),
      firstKeyMatch_findKeyPos n.content s i hfirst.1 hfirst.2]
    show (if i + 1 ≥ n.content.length then ((DelRes.ok : DelRes), n)
      else (.ok, n.withContent (n.content.take i ++ n.content.drop (i + 2)))) = _
    rw [if_neg (by omega)]
  · intro n i hk hge hlt
    show n.deleteKey1 (.int i) = _
    show (if n.kind ≠ .sequence then ((DelRes.ok : DelRes), n)
      else if (n.content.length : Int) ≤ i then (.ok, n)
      else if i < 0 then (.panicked, n)
      else (.ok, n.withContent
        (n.content.take i.toNat ++ n.content.drop (i.toNat + 1)))) = _
    rw [if_neg (by simp [hk]), if_neg (by omega), if_neg (by omega)]
  · intro n s hk
    show n.deleteKey1 (.str s) = _
    show (if n.kind ≠ .mapping then ((DelRes.ok : DelRes), n)
      else
        match findKeyPos n.content s with
        | some i =>
          if i + 1 ≥ n.content.length then (.ok, n)
          else (.ok, n.withContent (n.content.take i ++ n.content.drop (i + 2)))
        | none => (.ok, n)) = _
    rw [if_pos (by simp [hk])]
  · intro n i hk
    show n.deleteKey1 (.int i) = _
    show (if n.kind ≠ .sequence then ((DelRes.ok : DelRes), n)
      else if (n.content.length : Int) ≤ i then (.ok, n)
      else if i < 0 then (.panicked, n)
      else (.ok, n.withContent
        (n.content.take i.toNat ++ n.content.drop (i.toNat + 1)))) = _
    rw [if_pos (by simp [hk])]

theorem C6_witness :
    (YNode.mk .sequence 0 "!!seq" "" "" 0
      [stringNode "first", stringNode "second", stringNode "third"]
      "" "" "" 0 0).kind = .sequence ∧
    ((0 : Int) ≤ 1 ∧ (1 : Int) <
      ((YNode.mk .sequence 0 "!!seq" "" "" 0
        [stringNode "first", stringNode "second", stringNode "third"]
        "" "" "" 0 0).content.length : Int)) ∧
    (YNode.mk .sequence 0 "!!seq" "" "" 0
      [stringNode "first", stringNode "second", stringNode "third"]
      "" "" "" 0 0).DeleteKey [Step.int 1] =
      (.ok, YNode.mk .sequence 0 "!!seq" "" "" 0
        [stringNode "first", stringNode "third"] "" "" "" 0 0) := by
  have h := C6_delete_key.2.2.1
    (YNode.mk .sequence 0 "!!seq" "" "" 0
      [stringNode "first", stringNode "second", stringNode "third"] "" "" "" 0 0)
    1 rfl (by decide) (by decide)
  exact ⟨rfl, ⟨by decide, by decide⟩, by rw [h]; rfl⟩

/-- C3: the kind-preserving writes Set, SetKey and SetAt fail with the
incompatible-kind error exactly when the new node's kind differs from
the (existing) target node's kind and neither side is a null scalar;
the Replace, ReplaceKey and ReplaceAt variants never fail for that
reason. -/
theorem C3_kind_change_policy :
    (∀ (n : YNode) (v : GoValue),
      n.Set v =
        (if compatibleKinds (createNode v) n then (none, createNode v)
        else (some "cannot set a new node kind without replacing the node", n)))
  ∧ (∀ (n : YNode) (v : GoValue), n.Replace v = (none, createNode v))
  ∧ (∀ (n : YNode) (k : Step) (v : GoValue) (t : YNode), n.get1 k = .found t →
      n.SetKey k v =
        (if compatibleKinds t (createNode v) then
          (none, n.withContent (n.content.set (childPos n.content k) (createNode v)))
        else (some "cannot change the node kind", n)))
  ∧ (∀ (n : YNode) (k : Step) (v : GoValue) (t : YNode), n.get1 k = .found t →
      n.ReplaceKey k v =
        (none, n.withContent (n.content.set (childPos n.content k) (createNode v))))
  ∧ (∀ (P : List Step) (n t : YNode) (v : GoValue), WF n → n.get P = .found t →
      (n.SetAt P v).1 =
        (if compatibleKinds t (createNode v) then none
        else some "cannot change the node kind"))
  ∧ (∀ (P : List Step) (n t : YNode) (v : GoValue), WF n → n.get P = .found t →
      (n.ReplaceAt P v).1 = none) := by
  refine ⟨?_, ?_, ?_, ?_, ?_, ?_⟩
  · intro n v
    show n.setNode (createNode v) true = _
    unfold YNode.setNode
    by_cases hc : compatibleKinds (createNode v) n = true
    · simp [hc, deepCopyNode_eq]
    · simp only [Bool.not_eq_true] at hc
      simp [hc]
  · intro n v
    show n.setNode (createNode v) false = _
    unfold YNode.setNode
    simp [deepCopyNode_eq]
  · intro n k v t h
    show n.setKey k v true = _
    rw [setKey_found n k v t true h]
    by_cases hc : compatibleKinds t (createNode v) = true
    · simp [hc]
    · simp only [Bool.not_eq_true] at hc
      simp [hc]
  · intro n k v t h
    show n.setKey k v false = _
    rw [setKey_found n k v t false h]
    simp
  · intro P n t v hWF h
    show (n.setAt P v true).1 = _
    rw [get_found_setAt P n t v true hWF h]
    by_cases hc : compatibleKinds t (createNode v) = true
    · simp [hc]
    · simp only [Bool.not_eq_true] at hc
      simp [hc]
  · intro P n t v hWF h
    show (n.setAt P v false).1 = _
    rw [get_found_setAt P n t v false hWF h]
    simp

theorem C3_witness :
    exInner.get1 (Step.str "bar") = .found (stringNode "x") ∧
    compatibleKinds (stringNode "x") (createNode (GoValue.vlist [])) = false ∧
    exInner.SetKey (Step.str "bar") (GoValue.vlist []) =
      (some "cannot change the node kind", exInner) := by
  have h := C3_kind_change_policy.2.2.1 exInner (Step.str "bar") (GoValue.vlist [])
    (stringNode "x") rfl
  refine ⟨rfl, rfl, ?_⟩
  rw [h]
  rfl

end Yamled
